import Mathlib

/-!
Shallow embedding of `nncf/dynamic_graph/patch_pytorch.py`.

The patching subsystem mutates attributes of the torch namespaces
(`torch.nn.functional`, `torch`, `TracedTensor`, `torch.nn.Module`,
`torch.jit`).  We model the collection of namespace attributes as an
association list from (namespace id, attribute name) keys to operator
values.  Operator values form an inductive type: pre-existing framework
callables are `base` values, `wrap_operator orig info` is the closure
produced by the wrapper factory around `orig`, `wrap_module_call orig` is
the module-call wrapper, and `jit_wrapper` is the module-level
`torch_jit_script_wrapper` function object.  Python object identity of
callables is modelled by equality of these values: wrapping always
produces a value distinct from its argument.

The process-wide globals of the source module (`ORIGINAL_OPERATORS`,
`_JIT_ALREADY_WRAPPED`, `_OPERATORS_ALREADY_WRAPPED`, `_ORIG_JIT_SCRIPT`)
together with the namespaces form the `PatchState` record; every function
of the source becomes a state transformer on `PatchState`.  Warnings
emitted via `warnings.warn` are accumulated in a list.
-/

/-- Custom trace function objects.  The source defines a single concrete
subclass of `CustomTraceFunction`, namely `ForwardTraceOnly`; its call
behaviour is modelled separately by `ForwardTraceOnly_call` below. -/
inductive CustomTraceFunction where
  | ForwardTraceOnly
deriving DecidableEq, Repr

/-- Embedding of class `PatchedOperatorInfo`: a logical operator name plus
an optional custom trace function. -/
structure PatchedOperatorInfo where
  name : String
  custom_trace_fn : Option CustomTraceFunction
deriving DecidableEq, Repr

/-- Embedding of class `PatchSpec` (declared in the operator-metatype
registry and consumed by `patch_namespace_by_patchspec`): a list of
function names sharing one custom trace function. -/
structure PatchSpec where
  underlying_function_names : List String
  custom_trace_fn : Option CustomTraceFunction
deriving DecidableEq, Repr

/-- A namespace attribute key: the namespace (as a small id) and the
attribute name. -/
structure OpKey where
  ns : Nat
  name : String
deriving DecidableEq, Repr

/-- Values held by namespace attributes.  `base id` is a pre-existing
framework callable; `wrap_operator orig info` is the replacement callable
produced by the wrapper factory, closing over `orig`; `wrap_module_call
orig` is the wrapper installed over `torch.nn.Module.__call__`;
`jit_wrapper` is the `torch_jit_script_wrapper` function installed over
`torch.jit.script`. -/
inductive OpVal where
  | base (id : Nat)
  | wrap_operator (orig : OpVal) (info : PatchedOperatorInfo)
  | wrap_module_call (orig : OpVal)
  | jit_wrapper
deriving DecidableEq, Repr

/-- Embedding of class `OriginalOpInfo`: one registry record with the
attribute name, the owning namespace and the original callable. -/
structure OriginalOpInfo where
  name : String
  ns : Nat
  op : OpVal
deriving DecidableEq, Repr

/-- The key under which a registry record was created. -/
def recordKey (r : OriginalOpInfo) : OpKey := ⟨r.ns, r.name⟩

/-- All patchable namespaces, modelled as one attribute map. -/
abbrev Env := List (OpKey × OpVal)

/-- Embedding of `getattr(namespace, name)` (with `hasattr` = `isSome`):
the first binding of the key, if any. -/
def getattr? (env : Env) (k : OpKey) : Option OpVal :=
  match env with
  | [] => none
  | (k', v) :: rest => if k' = k then some v else getattr? rest k

/-- Embedding of `setattr(namespace, name, value)`: replace the first
binding of the key, or add one. -/
def setattr (env : Env) (k : OpKey) (v : OpVal) : Env :=
  match env with
  | [] => [(k, v)]
  | (k', v') :: rest => if k' = k then (k, v) :: rest else (k', v') :: setattr rest k v

/-- Namespace id for `torch.nn.functional` (imported as `F`). -/
def nsF : Nat := 0
/-- Namespace id for the top-level `torch` module. -/
def nsTorch : Nat := 1
/-- Namespace id for the `TracedTensor` class. -/
def nsTracedTensor : Nat := 2
/-- Namespace id for the `torch.nn.Module` class. -/
def nsModule : Nat := 3
/-- Namespace id for the `torch.jit` module. -/
def nsTorchJit : Nat := 4

/-- The key of `torch.jit.script`. -/
def jitScriptKey : OpKey := ⟨nsTorchJit, "script"⟩

/-- The key of `torch.nn.Module.__call__`. -/
def moduleCallKey : OpKey := ⟨nsModule, "__call__"⟩

/-- The whole process-wide state of the patching module: the namespaces,
the `ORIGINAL_OPERATORS` registry, the two idempotency flags, the stored
original `torch.jit.script`, and the warnings emitted so far. -/
structure PatchState where
  env : Env
  ORIGINAL_OPERATORS : List OriginalOpInfo
  JIT_ALREADY_WRAPPED : Bool
  OPERATORS_ALREADY_WRAPPED : Bool
  ORIG_JIT_SCRIPT : Option OpVal
  warnings : List String
deriving DecidableEq, Repr

/-- The message of the `warnings.warn` call in `patch_namespace_opname`. -/
def missingOperatorWarning (name : String) : String :=
  "Not patching " ++ name ++ " since it is missing in this version of PyTorch"

/-- Embedding of `patch_namespace_opname`: if the attribute exists, append
a registry record for its current value and replace it with a wrapper
closing over that value; otherwise only emit a warning. -/
def patch_namespace_opname (s : PatchState) (ns : Nat) (patched_op_info : PatchedOperatorInfo) : PatchState :=
  match getattr? s.env ⟨ns, patched_op_info.name⟩ with
  | some orig =>
    { s with
      ORIGINAL_OPERATORS := s.ORIGINAL_OPERATORS ++ [⟨patched_op_info.name, ns, orig⟩],
      env := setattr s.env ⟨ns, patched_op_info.name⟩ (OpVal.wrap_operator orig patched_op_info) }
  | none =>
    { s with warnings := s.warnings ++ [missingOperatorWarning patched_op_info.name] }

/-- Embedding of `patch_namespace_by_patchspec`: patch every name of the
patch spec with the spec's custom trace function. -/
def patch_namespace_by_patchspec (s : PatchState) (ns : Nat) (patchspec : PatchSpec) : PatchState :=
  patchspec.underlying_function_names.foldl
    (fun acc op_name => patch_namespace_opname acc ns ⟨op_name, patchspec.custom_trace_fn⟩) s

/-- One entry of `PT_OPERATOR_METATYPES.registry_dict`: up to three patch
specs, one per target namespace, exactly as read by the loop of
`patch_torch_operators`.  The registry itself lives outside this module
(`nncf.graph.operator_metatypes`), so the list of metatypes is a
parameter of `patch_torch_operators` below. -/
structure OperatorMetatype where
  torch_nn_functional_patch_spec : Option PatchSpec
  torch_module_patch_spec : Option PatchSpec
  torch_tensor_patch_spec : Option PatchSpec
deriving DecidableEq, Repr

/-- The body of the metatype loop of `patch_torch_operators`: apply each
declared patch spec to its target namespace. -/
def patchMetatype (s : PatchState) (m : OperatorMetatype) : PatchState :=
  let s1 := match m.torch_nn_functional_patch_spec with
    | some ps => patch_namespace_by_patchspec s nsF ps
    | none => s
  let s2 := match m.torch_module_patch_spec with
    | some ps => patch_namespace_by_patchspec s1 nsTorch ps
    | none => s1
  match m.torch_tensor_patch_spec with
  | some ps => patch_namespace_by_patchspec s2 nsTracedTensor ps
  | none => s2

/-- Embedding of `patch_torch_jit_script`: store the current
`torch.jit.script` in `_ORIG_JIT_SCRIPT` and install the wrapper.  In the
source the attribute read is an unconditional `getattr`; `torch.jit`
always has a `script` attribute, so the `none` branch below never fires in
any state considered by the theorems (which carry the corresponding
presence hypothesis where it matters). -/
def patch_torch_jit_script (s : PatchState) : PatchState :=
  match getattr? s.env jitScriptKey with
  | some orig =>
    { s with ORIG_JIT_SCRIPT := some orig, env := setattr s.env jitScriptKey OpVal.jit_wrapper }
  | none => s

/-- The jit-wrapping prologue of `patch_torch_operators`: wrap
`torch.jit.script` on the first `patch_torch_operators` call ever. -/
def jitStep (s : PatchState) : PatchState :=
  if s.JIT_ALREADY_WRAPPED then s
  else { patch_torch_jit_script s with JIT_ALREADY_WRAPPED := true }

/-- Embedding of lines 189-190 of `patch_torch_operators`: record the
current `torch.nn.Module.__call__` and replace it with the module-call
wrapper.  `Module.__call__` always exists on the class, so the `none`
branch never fires in any state considered by the theorems (which carry
the corresponding presence hypothesis where it matters). -/
def patch_module_call (s : PatchState) : PatchState :=
  match getattr? s.env moduleCallKey with
  | some orig =>
    { s with
      ORIGINAL_OPERATORS := s.ORIGINAL_OPERATORS ++ [⟨"__call__", nsModule, orig⟩],
      env := setattr s.env moduleCallKey (OpVal.wrap_module_call orig) }
  | none => s

/-- Embedding of `patch_torch_operators`: wrap `torch.jit.script` on the
first call ever; return immediately if the operators are already wrapped;
otherwise set the flag, run the metatype loop, patch
`TracedTensor.__repr__` as trace-forward-only, and wrap
`torch.nn.Module.__call__`.  (`ignore_scope` on the parallel wrappers is
an opaque annotation consumed elsewhere and does not touch this state.) -/
def patch_torch_operators (cfg : List OperatorMetatype) (s : PatchState) : PatchState :=
  let s1 := jitStep s
  if s1.OPERATORS_ALREADY_WRAPPED then s1
  else
    let s2 := { s1 with OPERATORS_ALREADY_WRAPPED := true }
    let s3 := cfg.foldl patchMetatype s2
    let s4 := patch_namespace_opname s3 nsTracedTensor ⟨"__repr__", some CustomTraceFunction.ForwardTraceOnly⟩
    patch_module_call s4

/-- Embedding of `unpatch_torch_operators`: no-op when the operators are
not wrapped; otherwise clear the flag and restore every registry record in
forward registry order.  The registry itself is not cleared. -/
def unpatch_torch_operators (s : PatchState) : PatchState :=
  if s.OPERATORS_ALREADY_WRAPPED = false then s
  else
    { s with
      OPERATORS_ALREADY_WRAPPED := false,
      env := s.ORIGINAL_OPERATORS.foldl (fun e r => setattr e (recordKey r) r.op) s.env }

/-- Embedding of `torch_jit_script_wrapper`: unpatch, call the stored
original `torch.jit.script`, re-patch, return.  The original call's
return value does not touch patch state; only its exceptional control
flow matters, so it is modelled by the boolean `orig_raises`.  When the
original raises, the exception propagates before `patch_torch_operators`
runs, and the state at that moment is carried by the `error` case. -/
def torch_jit_script_wrapper (cfg : List OperatorMetatype) (orig_raises : Bool) (s : PatchState) : Except PatchState PatchState :=
  let s1 := unpatch_torch_operators s
  if orig_raises then Except.error s1
  else Except.ok (patch_torch_operators cfg s1)

/-- A failure oracle for the fallible run of `patch_torch_operators`:
`fails k = true` means that patching the attribute `k` raises (the error
handling sections of the spec leave the exception source abstract - e.g.
an error inside `wrap_operator` - and model it as striking before the
record for `k` is appended). -/
abbrev FailOracle := OpKey → Bool

/-- Fallible `patch_namespace_opname`: raise (carrying the state at the
raise) if the oracle says patching this attribute fails. -/
def patch_namespace_opname_f (fails : FailOracle) (s : PatchState) (ns : Nat) (patched_op_info : PatchedOperatorInfo) : Except PatchState PatchState :=
  if fails ⟨ns, patched_op_info.name⟩ then Except.error s
  else Except.ok (patch_namespace_opname s ns patched_op_info)

/-- Fallible `patch_namespace_by_patchspec`; an exception aborts the rest
of the name loop. -/
def patch_namespace_by_patchspec_f (fails : FailOracle) (s : PatchState) (ns : Nat) (patchspec : PatchSpec) : Except PatchState PatchState :=
  patchspec.underlying_function_names.foldlM
    (fun acc op_name => patch_namespace_opname_f fails acc ns ⟨op_name, patchspec.custom_trace_fn⟩) s

/-- Fallible metatype-loop body, with the monadic sequencing written as
explicit binds. -/
def patchMetatype_f (fails : FailOracle) (s : PatchState) (m : OperatorMetatype) : Except PatchState PatchState :=
  (match m.torch_nn_functional_patch_spec with
    | some ps => patch_namespace_by_patchspec_f fails s nsF ps
    | none => pure s) >>= fun s1 =>
  (match m.torch_module_patch_spec with
    | some ps => patch_namespace_by_patchspec_f fails s1 nsTorch ps
    | none => pure s1) >>= fun s2 =>
  (match m.torch_tensor_patch_spec with
    | some ps => patch_namespace_by_patchspec_f fails s2 nsTracedTensor ps
    | none => pure s2)

/-- Fallible `patch_torch_operators`: identical to the plain embedding
except that an exception raised while patching one operator aborts the
remaining loop and propagates, carrying the global state at that moment.
Note that the operator flag is set `true` before the loop starts. -/
def patch_torch_operators_f (fails : FailOracle) (cfg : List OperatorMetatype) (s : PatchState) : Except PatchState PatchState :=
  let s1 := jitStep s
  if s1.OPERATORS_ALREADY_WRAPPED then Except.ok s1
  else
    let s2 := { s1 with OPERATORS_ALREADY_WRAPPED := true }
    cfg.foldlM (patchMetatype_f fails) s2 >>= fun s3 =>
    patch_namespace_opname_f fails s3 nsTracedTensor
      ⟨"__repr__", some CustomTraceFunction.ForwardTraceOnly⟩ >>= fun s4 =>
    pure (patch_module_call s4)

/-- The two public lifecycle entry points, as actions. -/
inductive PatchAction where
  | patchAll
  | unpatchAll
deriving DecidableEq, Repr

/-- Run one lifecycle entry point. -/
def runAction (cfg : List OperatorMetatype) (s : PatchState) : PatchAction → PatchState
  | PatchAction.patchAll => patch_torch_operators cfg s
  | PatchAction.unpatchAll => unpatch_torch_operators s

/-- Run a sequence of lifecycle calls. -/
def runActions (cfg : List OperatorMetatype) (acts : List PatchAction) (s : PatchState) : PatchState :=
  acts.foldl (runAction cfg) s

/-- Is `v` a wrapper whose closure points to `orig`?  True exactly for
`wrap_operator orig _` and `wrap_module_call orig`. -/
def isWrapperOver (v orig : OpVal) : Bool :=
  match v with
  | OpVal.wrap_operator o _ => o == orig
  | OpVal.wrap_module_call o => o == orig
  | _ => false

/-- Does the attribute recorded by `r` currently hold a wrapper closing
over `r`'s original? -/
def recordInstalled (env : Env) (r : OriginalOpInfo) : Bool :=
  match getattr? env (recordKey r) with
  | some v => isWrapperOver v r.op
  | none => false

/-- The consistency property of the spec invariant: the operator flag is
true iff the registry is non-empty and each recorded name currently holds
a wrapper closing over that record's original. -/
def flagRegistryConsistent (s : PatchState) : Bool :=
  s.OPERATORS_ALREADY_WRAPPED ==
    (!s.ORIGINAL_OPERATORS.isEmpty && s.ORIGINAL_OPERATORS.all (recordInstalled s.env))

/-!
Embedding of `ForwardTraceOnly.__call__`, the trace-forwarding policy.

The traced-tensor data model lives in `nncf/dynamic_graph/trace_tensor.py`,
which is not among the sources; the pieces this policy consumes are
modelled from the spec below.
-/

/-- Modelled from the spec: the provenance metadata attached to a traced
tensor (`trace_tensor.py` is not among the sources).  The spec describes
it as a shape/identity descriptor whose `shape` field is overwritten when
provenance is forwarded, so it is a creator identity plus a shape.
`deepcopy` of a record is structural copying, which is implicit here. -/
structure TensorMeta where
  creator_id : Nat
  shape : List Nat
deriving DecidableEq, Repr

/-- A runtime value flowing through an intercepted operator: a plain
`torch.Tensor` with its shape, a `TracedTensor` (a `Tensor` subclass, so
it also has a shape) carrying `tensor_meta`, or any non-tensor value
(which has no `shape` attribute). -/
inductive TVal where
  | tensor (shape : List Nat)
  | traced (shape : List Nat) (tensor_meta : TensorMeta)
  | other (id : Nat)
deriving DecidableEq, Repr

/-- `isinstance(v, TracedTensor)`. -/
def isTracedTensor : TVal → Bool
  | TVal.traced _ _ => true
  | _ => false

/-- `isinstance(v, Tensor)`; true for `TracedTensor` values too, since
`TracedTensor` subclasses `Tensor`. -/
def isTensor : TVal → Bool
  | TVal.tensor _ => true
  | TVal.traced _ _ => true
  | TVal.other _ => false

/-- Reading `v.shape`, which only tensors support: `none` models the
`AttributeError` a non-tensor raises. -/
def shape? : TVal → Option (List Nat)
  | TVal.tensor sh => some sh
  | TVal.traced sh _ => some sh
  | TVal.other _ => none

/-- Total shape read, used only where the source has already established
`isinstance(v, Tensor)` by filtering. -/
def shapeOf (v : TVal) : List Nat := (shape? v).getD []

/-- Reading `v.tensor_meta`, used only where the source has already
established `isinstance(v, TracedTensor)`. -/
def metaOf : TVal → TensorMeta
  | TVal.traced _ m => m
  | _ => ⟨0, []⟩

/-- Modelled from the spec: `flatten_args` from `trace_tensor.py` (not
among the sources) flattens positional and keyword arguments into one
ordered sequence in a canonical deterministic order, modelled as the
positional arguments followed by the keyword argument values. -/
def flatten_args (args kwargs : List TVal) : List TVal := args ++ kwargs

/-- `[i for i in range(len(fargs)) if isinstance(fargs[i], TracedTensor)]`. -/
def tracedIndices (l : List TVal) : List Nat :=
  (List.range l.length).filter (fun i => isTracedTensor (l.getD i (TVal.other 0)))

/-- `[i for i in range(len(result)) if isinstance(result[i], Tensor)]`. -/
def tensorIndices (l : List TVal) : List Nat :=
  (List.range l.length).filter (fun i => isTensor (l.getD i (TVal.other 0)))

/-- The result of an intercepted operator: either a list/tuple of values
(with the list/tuple distinction retained, as the source converts to a
list and back) or a single value. -/
inductive TRes where
  | single (v : TVal)
  | seq (isTuple : Bool) (vals : List TVal)
deriving DecidableEq, Repr

/-- The message of the `RuntimeError` raised on a provenance-carrier
count mismatch, naming the operator. -/
def forwardingMismatchMessage (op_name : String) : String :=
  "Unable to forward trace through operator " ++ op_name ++
    " - input and output tensor count mismatch!"

/-- The `AttributeError` raised by reading `.shape` of a non-tensor
single result. -/
def shapeAttributeErrorMessage : String :=
  "AttributeError: single result has no shape attribute"

/-- `TracedTensor.from_torch_tensor(t, meta)`: wrap the tensor data (and
so its shape) with the given metadata. -/
def from_torch_tensor (t : TVal) (meta : TensorMeta) : TVal :=
  TVal.traced (shapeOf t) meta

/-- The shared body of the two forwarding loops of
`ForwardTraceOnly.__call__` (broadcast and pairwise differ only in the
sequence of (input index, output index) pairs): for each pair, deep-copy
the input's `tensor_meta`, overwrite its `shape` with the shape of the
current output element, and replace that element with the rewrapped
traced tensor. -/
def forwardPairs (fargs : List TVal) (vals : List TVal) (pairs : List (Nat × Nat)) : List TVal :=
  pairs.foldl
    (fun acc p =>
      let out := acc.getD p.2 (TVal.other 0)
      let forwarded_meta := { metaOf (fargs.getD p.1 (TVal.other 0)) with shape := shapeOf out }
      acc.set p.2 (from_torch_tensor out forwarded_meta))
    vals

/-- Embedding of `ForwardTraceOnly.__call__`.  The wrapped operator is an
explicit state transformer `op` over an effect state, so that "the
operator executed exactly once" is visible in the returned effect state;
it runs unconditionally first.  Exceptions are the `Except.error` case of
the returned result. -/
def ForwardTraceOnly_call {σ : Type} (op_name : String) (op : σ → σ × TRes)
    (args kwargs : List TVal) (st : σ) : σ × Except String TRes :=
  let p := op st
  let st' := p.1
  let fargs := flatten_args args kwargs
  let input_traced_tensor_indices := tracedIndices fargs
  match p.2 with
  | TRes.seq was_tuple vals =>
    let output_tensors_to_be_traced_indices := tensorIndices vals
    if input_traced_tensor_indices.length = 1 then
      (st', Except.ok (TRes.seq was_tuple (forwardPairs fargs vals
        (output_tensors_to_be_traced_indices.map
          (fun out_idx => (input_traced_tensor_indices.getD 0 0, out_idx))))))
    else if input_traced_tensor_indices.length ≠ output_tensors_to_be_traced_indices.length then
      (st', Except.error (forwardingMismatchMessage op_name))
    else
      (st', Except.ok (TRes.seq was_tuple (forwardPairs fargs vals
        (input_traced_tensor_indices.zip output_tensors_to_be_traced_indices))))
  | TRes.single v =>
    if 1 < input_traced_tensor_indices.length then
      (st', Except.error (forwardingMismatchMessage op_name))
    else if input_traced_tensor_indices ≠ [] then
      match shape? v with
      | some sh =>
        let forwarded_meta :=
          { metaOf (fargs.getD (input_traced_tensor_indices.getD 0 0) (TVal.other 0)) with
            shape := sh }
        (st', Except.ok (TRes.single (from_torch_tensor v forwarded_meta)))
      | none => (st', Except.error shapeAttributeErrorMessage)
    else
      (st', Except.ok (TRes.single v))

/-- Is an `Except` result a normal return? -/
def exceptIsOk {ε α : Type} : Except ε α → Bool
  | Except.ok _ => true
  | Except.error _ => false

/-!
Proof-support definitions: the patch phase of `patch_torch_operators`
viewed as one flat list of per-attribute steps, the closed form of the
records it appends, and the last registry record restored at a key by
`unpatch_torch_operators`'s forward-order loop.
-/

/-- One per-attribute step of the patch phase. -/
def opStep (s : PatchState) (step : OpKey × Option CustomTraceFunction) : PatchState :=
  patch_namespace_opname s step.1.ns ⟨step.1.name, step.2⟩

/-- The steps performed by `patch_namespace_by_patchspec`. -/
def specSteps (ns : Nat) (ps : PatchSpec) : List (OpKey × Option CustomTraceFunction) :=
  ps.underlying_function_names.map (fun nm => ((⟨ns, nm⟩ : OpKey), ps.custom_trace_fn))

/-- The steps performed for one operator metatype. -/
def metatypeSteps (m : OperatorMetatype) : List (OpKey × Option CustomTraceFunction) :=
  (match m.torch_nn_functional_patch_spec with
    | some ps => specSteps nsF ps
    | none => []) ++
  (match m.torch_module_patch_spec with
    | some ps => specSteps nsTorch ps
    | none => []) ++
  (match m.torch_tensor_patch_spec with
    | some ps => specSteps nsTracedTensor ps
    | none => [])

/-- All `patch_namespace_opname` steps of one `patch_torch_operators`
session: the metatype loop followed by the forced `TracedTensor.__repr__`
patch. -/
def sessionSteps (cfg : List OperatorMetatype) : List (OpKey × Option CustomTraceFunction) :=
  cfg.flatMap metatypeSteps ++
    [((⟨nsTracedTensor, "__repr__"⟩ : OpKey), some CustomTraceFunction.ForwardTraceOnly)]

/-- Every attribute key a `patch_torch_operators` session may touch: the
session steps plus the implicit `torch.nn.Module.__call__` patch. -/
def allSessionKeys (cfg : List OperatorMetatype) : List OpKey :=
  (sessionSteps cfg).map Prod.fst ++ [moduleCallKey]

/-- The registry records appended by a run of the given steps over an
environment in which each step's key still has its starting value (the
closed form is valid when the step keys are distinct). -/
def stepRecords (env : Env) (steps : List (OpKey × Option CustomTraceFunction)) : List OriginalOpInfo :=
  steps.filterMap (fun st => (getattr? env st.1).map (fun v => (⟨st.1.name, st.1.ns, v⟩ : OriginalOpInfo)))

/-- The last registry record for key `k`: the one whose restore by the
forward-order loop of `unpatch_torch_operators` wins. -/
def lastRestore (reg : List OriginalOpInfo) (k : OpKey) : Option OriginalOpInfo :=
  match reg with
  | [] => none
  | r :: rest =>
    match lastRestore rest k with
    | some x => some x
    | none => if recordKey r = k then some r else none

/-- The input index whose provenance the forwarding loop writes to output
index `o` (the first pair targeting `o`; the pair lists used by the
policy have distinct targets). -/
def findForwardSource (pairs : List (Nat × Nat)) (o : Nat) : Option Nat :=
  match pairs with
  | [] => none
  | p :: rest => if p.2 = o then some p.1 else findForwardSource rest o

/-- The inductive invariant connecting the registry, the namespaces and
the operator flag for a fixed metatype configuration: the module-call
attribute exists; every record was created at a key the session patches;
when the flag is up, the registry is non-empty and every recorded name
holds a wrapper over that record's original; when it is down, every
recorded name holds the record's original itself. -/
def StrongInv (cfg : List OperatorMetatype) (s : PatchState) : Prop :=
  (getattr? s.env moduleCallKey).isSome = true ∧
  (∀ r ∈ s.ORIGINAL_OPERATORS, recordKey r ∈ allSessionKeys cfg) ∧
  (s.OPERATORS_ALREADY_WRAPPED = true →
    s.ORIGINAL_OPERATORS ≠ [] ∧
    ∀ r ∈ s.ORIGINAL_OPERATORS, recordInstalled s.env r = true) ∧
  (s.OPERATORS_ALREADY_WRAPPED = false →
    ∀ r ∈ s.ORIGINAL_OPERATORS, getattr? s.env (recordKey r) = some r.op)

/-!
Concrete instances used by witnesses and counterexamples.
-/

/-- A small namespace population: `torch.relu`, `Module.__call__` and
`torch.jit.script` all exist and are distinct original callables. -/
def envEx : Env :=
  [((⟨nsTorch, "relu"⟩ : OpKey), OpVal.base 0),
   (moduleCallKey, OpVal.base 1),
   (jitScriptKey, OpVal.base 2)]

/-- The module-load state: nothing recorded, nothing wrapped. -/
def sEx : PatchState := ⟨envEx, [], false, false, none, []⟩

/-- A patch spec listing the same operator name twice. -/
def psDup : PatchSpec := ⟨["relu", "relu"], none⟩

/-- A configuration that patches `torch.relu` twice in one session. -/
def cfgDup : List OperatorMetatype := [⟨none, some psDup, none⟩]

/-- A duplicate-free configuration patching `torch.relu` once. -/
def cfgW : List OperatorMetatype := [⟨none, some (⟨["relu"], none⟩ : PatchSpec), none⟩]

/-- A failure oracle making the `torch.relu` patch raise. -/
def failsRelu : FailOracle := fun k => k.name == "relu"

/-- The state carried by the exception of the failing
`patch_torch_operators_f failsRelu cfgW sEx` run. -/
def sExErr : PatchState :=
  match patch_torch_operators_f failsRelu cfgW sEx with
  | Except.ok t => t
  | Except.error t => t

/-- A namespace for the missing-operator batch example: only `F.gelu`
exists. -/
def envEx9 : Env := [((⟨nsF, "gelu"⟩ : OpKey), OpVal.base 5)]

/-- Start state for the missing-operator batch example. -/
def sEx9 : PatchState := ⟨envEx9, [], false, false, none, []⟩

/-- A batch containing one missing and one present operator name. -/
def psEx9 : PatchSpec := ⟨["missing_fn", "gelu"], none⟩

/-- Provenance metadata of the traced example input. -/
def mEx : TensorMeta := ⟨7, [2]⟩

/-- A multi-output operator returning a tuple with two tensor-like
elements and one non-tensor element, with a counter as effect state. -/
def opEx5 : Nat → Nat × TRes :=
  fun n => (n + 1, TRes.seq true [TVal.tensor [3], TVal.other 5, TVal.tensor [4, 1]])

/-- Second provenance metadata for pairwise examples. -/
def mEx2 : TensorMeta := ⟨8, [5]⟩

/-- A multi-output operator returning a list with two tensor-like
elements and one non-tensor element. -/
def opEx6 : Nat → Nat × TRes :=
  fun n => (n + 1, TRes.seq false [TVal.tensor [3], TVal.other 9, TVal.tensor [4]])

/-- A multi-output operator returning three tensor-like elements. -/
def opEx7 : Nat → Nat × TRes :=
  fun n => (n + 1, TRes.seq true [TVal.tensor [1], TVal.tensor [2], TVal.tensor [3]])

/-- A single-output operator returning one plain tensor. -/
def opEx8 : Nat → Nat × TRes := fun n => (n + 1, TRes.single (TVal.tensor [4]))

/-- A single-output operator returning a non-tensor value (as e.g.
`torch.equal` does). -/
def opEx8bad : Nat → Nat × TRes := fun n => (n + 1, TRes.single (TVal.other 3))

/-!
Helper lemmas: attribute maps.
-/

theorem getattr?_setattr_self (env : Env) (k : OpKey) (v : OpVal) :
    getattr? (setattr env k v) k = some v := by
  induction env with
  | nil => simp [setattr, getattr?]
  | cons p rest ih =>
    obtain ⟨k', v'⟩ := p
    by_cases h : k' = k
    · simp [setattr, getattr?, h]
    · simp [setattr, getattr?, h, ih]

theorem getattr?_setattr_ne (env : Env) (k k' : OpKey) (v : OpVal) (h : k' ≠ k) :
    getattr? (setattr env k v) k' = getattr? env k' := by
  have hk : ¬ (k = k') := fun hh => h hh.symm
  induction env with
  | nil => simp [setattr, getattr?, hk]
  | cons p rest ih =>
    obtain ⟨k0, v0⟩ := p
    by_cases h0 : k0 = k
    · subst h0
      simp [setattr, getattr?, hk]
    · by_cases h1 : k0 = k'
      · simp [setattr, getattr?, h0, h1, h]
      · simp [setattr, getattr?, h0, h1, ih]

theorem isSome_getattr?_setattr (env : Env) (k k' : OpKey) (v : OpVal)
    (h : (getattr? env k').isSome = true) :
    (getattr? (setattr env k v) k').isSome = true := by
  by_cases hk : k' = k
  · subst hk; simp [getattr?_setattr_self]
  · rw [getattr?_setattr_ne env k k' v hk]; exact h

/-!
Helper lemmas: operator values and wrappers.
-/

theorem ne_wrap_operator_self (o : OpVal) (i : PatchedOperatorInfo) :
    o ≠ OpVal.wrap_operator o i := by
  intro h
  have h' := congrArg sizeOf h
  simp at h'
  omega

theorem ne_wrap_module_call_self (o : OpVal) : o ≠ OpVal.wrap_module_call o := by
  intro h
  have h' := congrArg sizeOf h
  simp at h'

theorem isWrapperOver_self_false (v : OpVal) : isWrapperOver v v = false := by
  cases v with
  | base id => rfl
  | wrap_operator o i =>
    simp only [isWrapperOver, beq_eq_false_iff_ne, ne_eq]
    exact ne_wrap_operator_self o i
  | wrap_module_call o =>
    simp only [isWrapperOver, beq_eq_false_iff_ne, ne_eq]
    exact ne_wrap_module_call_self o
  | jit_wrapper => rfl

theorem isWrapperOver_functional (v a b : OpVal)
    (ha : isWrapperOver v a = true) (hb : isWrapperOver v b = true) : a = b := by
  cases v with
  | base id => simp [isWrapperOver] at ha
  | wrap_operator o i =>
    simp only [isWrapperOver, beq_iff_eq] at ha hb
    rw [← ha, ← hb]
  | wrap_module_call o =>
    simp only [isWrapperOver, beq_iff_eq] at ha hb
    rw [← ha, ← hb]
  | jit_wrapper => simp [isWrapperOver] at ha

theorem isWrapperOver_wrap_operator (o : OpVal) (i : PatchedOperatorInfo) :
    isWrapperOver (OpVal.wrap_operator o i) o = true := by
  simp [isWrapperOver]

theorem isWrapperOver_wrap_module_call (o : OpVal) :
    isWrapperOver (OpVal.wrap_module_call o) o = true := by
  simp [isWrapperOver]

/-!
Helper lemmas: single patch steps.
-/

theorem opname_OPERATORS (s : PatchState) (ns : Nat) (i : PatchedOperatorInfo) :
    (patch_namespace_opname s ns i).OPERATORS_ALREADY_WRAPPED = s.OPERATORS_ALREADY_WRAPPED := by
  unfold patch_namespace_opname
  cases getattr? s.env ⟨ns, i.name⟩ <;> rfl

theorem opname_JIT (s : PatchState) (ns : Nat) (i : PatchedOperatorInfo) :
    (patch_namespace_opname s ns i).JIT_ALREADY_WRAPPED = s.JIT_ALREADY_WRAPPED := by
  unfold patch_namespace_opname
  cases getattr? s.env ⟨ns, i.name⟩ <;> rfl

theorem opname_ORIG_JIT (s : PatchState) (ns : Nat) (i : PatchedOperatorInfo) :
    (patch_namespace_opname s ns i).ORIG_JIT_SCRIPT = s.ORIG_JIT_SCRIPT := by
  unfold patch_namespace_opname
  cases getattr? s.env ⟨ns, i.name⟩ <;> rfl

theorem opname_reg_mono (s : PatchState) (ns : Nat) (i : PatchedOperatorInfo)
    (r : OriginalOpInfo) (h : r ∈ s.ORIGINAL_OPERATORS) :
    r ∈ (patch_namespace_opname s ns i).ORIGINAL_OPERATORS := by
  unfold patch_namespace_opname
  cases getattr? s.env ⟨ns, i.name⟩ with
  | none => exact h
  | some v => simp [h]

theorem opname_warn_mono (s : PatchState) (ns : Nat) (i : PatchedOperatorInfo)
    (w : String) (h : w ∈ s.warnings) :
    w ∈ (patch_namespace_opname s ns i).warnings := by
  unfold patch_namespace_opname
  cases getattr? s.env ⟨ns, i.name⟩ with
  | none => simp [h]
  | some v => exact h

theorem opStep_eq (s : PatchState) (st : OpKey × Option CustomTraceFunction) :
    opStep s st =
      match getattr? s.env st.1 with
      | some orig =>
        { s with
          ORIGINAL_OPERATORS := s.ORIGINAL_OPERATORS ++ [⟨st.1.name, st.1.ns, orig⟩],
          env := setattr s.env st.1 (OpVal.wrap_operator orig ⟨st.1.name, st.2⟩) }
      | none =>
        { s with warnings := s.warnings ++ [missingOperatorWarning st.1.name] } := by
  obtain ⟨⟨n0, m0⟩, f0⟩ := st
  rfl

theorem opStep_env_ne (s : PatchState) (st : OpKey × Option CustomTraceFunction)
    (k : OpKey) (h : k ≠ st.1) :
    getattr? (opStep s st).env k = getattr? s.env k := by
  rw [opStep_eq]
  cases getattr? s.env st.1 with
  | none => rfl
  | some v =>
    simp only []
    rw [getattr?_setattr_ne _ _ _ _ h]

theorem opStep_env_none (s : PatchState) (st : OpKey × Option CustomTraceFunction)
    (k : OpKey) (h : getattr? s.env k = none) :
    getattr? (opStep s st).env k = none := by
  by_cases hk : k = st.1
  · subst hk
    rw [opStep_eq, h]
    exact h
  · rw [opStep_env_ne s st k hk]
    exact h

theorem opStep_env_isSome (s : PatchState) (st : OpKey × Option CustomTraceFunction)
    (k : OpKey) :
    (getattr? (opStep s st).env k).isSome = (getattr? s.env k).isSome := by
  rw [opStep_eq]
  cases hv : getattr? s.env st.1 with
  | none => rfl
  | some v =>
    simp only []
    by_cases h : k = st.1
    · subst h
      rw [getattr?_setattr_self, hv]
      rfl
    · rw [getattr?_setattr_ne _ _ _ _ h]

/-!
Helper lemmas: folding the patch phase.
-/

theorem foldl_pres {α β : Type _} (g : PatchState → β) (f : PatchState → α → PatchState)
    (hf : ∀ s a, g (f s a) = g s) :
    ∀ (l : List α) (s : PatchState), g (l.foldl f s) = g s := by
  intro l
  induction l with
  | nil => intro s; rfl
  | cons a t ih => intro s; rw [List.foldl_cons, ih, hf]

theorem opStep_OPERATORS (s : PatchState) (st : OpKey × Option CustomTraceFunction) :
    (opStep s st).OPERATORS_ALREADY_WRAPPED = s.OPERATORS_ALREADY_WRAPPED :=
  opname_OPERATORS s st.1.ns ⟨st.1.name, st.2⟩

theorem opStep_JIT (s : PatchState) (st : OpKey × Option CustomTraceFunction) :
    (opStep s st).JIT_ALREADY_WRAPPED = s.JIT_ALREADY_WRAPPED :=
  opname_JIT s st.1.ns ⟨st.1.name, st.2⟩

theorem phase_OPERATORS (steps : List (OpKey × Option CustomTraceFunction)) (s : PatchState) :
    (steps.foldl opStep s).OPERATORS_ALREADY_WRAPPED = s.OPERATORS_ALREADY_WRAPPED :=
  foldl_pres (fun t => t.OPERATORS_ALREADY_WRAPPED) opStep opStep_OPERATORS steps s

theorem phase_JIT (steps : List (OpKey × Option CustomTraceFunction)) (s : PatchState) :
    (steps.foldl opStep s).JIT_ALREADY_WRAPPED = s.JIT_ALREADY_WRAPPED :=
  foldl_pres (fun t => t.JIT_ALREADY_WRAPPED) opStep opStep_JIT steps s

theorem phase_env_untouched (steps : List (OpKey × Option CustomTraceFunction)) (s : PatchState)
    (k : OpKey) (h : k ∉ steps.map Prod.fst) :
    getattr? ((steps.foldl opStep s)).env k = getattr? s.env k := by
  induction steps generalizing s with
  | nil => rfl
  | cons st rest ih =>
    simp only [List.map_cons, List.mem_cons] at h
    push_neg at h
    rw [List.foldl_cons, ih _ h.2, opStep_env_ne s st k h.1]

theorem phase_env_none (steps : List (OpKey × Option CustomTraceFunction)) (s : PatchState)
    (k : OpKey) (h : getattr? s.env k = none) :
    getattr? ((steps.foldl opStep s)).env k = none := by
  induction steps generalizing s with
  | nil => exact h
  | cons st rest ih =>
    rw [List.foldl_cons]
    exact ih _ (opStep_env_none s st k h)

theorem phase_env_isSome (steps : List (OpKey × Option CustomTraceFunction)) (s : PatchState)
    (k : OpKey) :
    (getattr? ((steps.foldl opStep s)).env k).isSome = (getattr? s.env k).isSome := by
  induction steps generalizing s with
  | nil => rfl
  | cons st rest ih =>
    rw [List.foldl_cons, ih, opStep_env_isSome]

theorem phase_env_touched (pre post : List (OpKey × Option CustomTraceFunction))
    (k : OpKey) (fn : Option CustomTraceFunction) (s : PatchState) (v : OpVal)
    (hpre : k ∉ pre.map Prod.fst) (hpost : k ∉ post.map Prod.fst)
    (hv : getattr? s.env k = some v) :
    getattr? (((pre ++ (k, fn) :: post).foldl opStep s)).env k =
      some (OpVal.wrap_operator v ⟨k.name, fn⟩) := by
  rw [List.foldl_append, List.foldl_cons]
  have h1 : getattr? ((pre.foldl opStep s)).env k = some v := by
    rw [phase_env_untouched pre s k hpre]; exact hv
  have h2 : getattr? (opStep (pre.foldl opStep s) (k, fn)).env k =
      some (OpVal.wrap_operator v ⟨k.name, fn⟩) := by
    rw [opStep_eq]
    simp only [h1]
    rw [getattr?_setattr_self]
  rw [phase_env_untouched post _ k hpost, h2]

theorem phase_reg_mono (steps : List (OpKey × Option CustomTraceFunction)) (s : PatchState)
    (r : OriginalOpInfo) (h : r ∈ s.ORIGINAL_OPERATORS) :
    r ∈ ((steps.foldl opStep s)).ORIGINAL_OPERATORS := by
  induction steps generalizing s with
  | nil => exact h
  | cons st rest ih =>
    exact ih _ (opname_reg_mono s st.1.ns ⟨st.1.name, st.2⟩ r h)

theorem phase_warn_mono (steps : List (OpKey × Option CustomTraceFunction)) (s : PatchState)
    (w : String) (h : w ∈ s.warnings) :
    w ∈ ((steps.foldl opStep s)).warnings := by
  induction steps generalizing s with
  | nil => exact h
  | cons st rest ih =>
    exact ih _ (opname_warn_mono s st.1.ns ⟨st.1.name, st.2⟩ w h)

theorem phase_warn_missing (steps : List (OpKey × Option CustomTraceFunction)) (s : PatchState)
    (k : OpKey) (fn : Option CustomTraceFunction)
    (hmem : ((k, fn) : OpKey × Option CustomTraceFunction) ∈ steps)
    (hnone : getattr? s.env k = none) :
    missingOperatorWarning k.name ∈ ((steps.foldl opStep s)).warnings := by
  induction steps generalizing s with
  | nil => cases hmem
  | cons st rest ih =>
    rw [List.foldl_cons]
    rcases List.mem_cons.mp hmem with heq | hmem'
    · have ht : opStep s st = { s with warnings := s.warnings ++ [missingOperatorWarning k.name] } := by
        rw [opStep_eq, ← heq]
        simp only [hnone]
      rw [ht]
      apply phase_warn_mono
      simp
    · exact ih _ hmem' (opStep_env_none s st k hnone)

theorem stepRecords_nil (env : Env) : stepRecords env [] = [] := rfl

theorem stepRecords_cons (env : Env) (st : OpKey × Option CustomTraceFunction)
    (rest : List (OpKey × Option CustomTraceFunction)) :
    stepRecords env (st :: rest) =
      (match getattr? env st.1 with
       | some v => [(⟨st.1.name, st.1.ns, v⟩ : OriginalOpInfo)]
       | none => []) ++ stepRecords env rest := by
  unfold stepRecords
  rw [List.filterMap_cons]
  cases getattr? env st.1 <;> simp

theorem stepRecords_congr (e1 e2 : Env) (steps : List (OpKey × Option CustomTraceFunction))
    (h : ∀ st ∈ steps, getattr? e1 st.1 = getattr? e2 st.1) :
    stepRecords e1 steps = stepRecords e2 steps := by
  induction steps with
  | nil => rfl
  | cons st rest ih =>
    rw [stepRecords_cons, stepRecords_cons, h st (by simp),
      ih (fun x hx => h x (by simp [hx]))]

theorem stepRecords_mem (env : Env) (steps : List (OpKey × Option CustomTraceFunction))
    (r : OriginalOpInfo) (h : r ∈ stepRecords env steps) :
    ∃ st, st ∈ steps ∧ st.1 = recordKey r ∧ getattr? env st.1 = some r.op := by
  unfold stepRecords at h
  rw [List.mem_filterMap] at h
  obtain ⟨st, hst, hmap⟩ := h
  rw [Option.map_eq_some'] at hmap
  obtain ⟨v, hv, heq⟩ := hmap
  refine ⟨st, hst, ?_, ?_⟩
  · rw [← heq]; rfl
  · rw [hv, ← heq]

theorem stepRecords_mem_intro (env : Env) (steps : List (OpKey × Option CustomTraceFunction))
    (k : OpKey) (fn : Option CustomTraceFunction) (v : OpVal)
    (hst : ((k, fn) : OpKey × Option CustomTraceFunction) ∈ steps)
    (hv : getattr? env k = some v) :
    (⟨k.name, k.ns, v⟩ : OriginalOpInfo) ∈ stepRecords env steps := by
  unfold stepRecords
  rw [List.mem_filterMap]
  exact ⟨(k, fn), hst, by simp [hv]⟩

theorem phase_reg (steps : List (OpKey × Option CustomTraceFunction)) (s : PatchState)
    (hnd : (steps.map Prod.fst).Nodup) :
    ((steps.foldl opStep s)).ORIGINAL_OPERATORS =
      s.ORIGINAL_OPERATORS ++ stepRecords s.env steps := by
  induction steps generalizing s with
  | nil => simp [stepRecords_nil]
  | cons st rest ih =>
    rw [List.map_cons, List.nodup_cons] at hnd
    obtain ⟨hout, hnd'⟩ := hnd
    rw [List.foldl_cons, stepRecords_cons]
    cases hv : getattr? s.env st.1 with
    | none =>
      have ht : opStep s st = { s with warnings := s.warnings ++ [missingOperatorWarning st.1.name] } := by
        rw [opStep_eq, hv]
      rw [ht, ih _ hnd']
      simp
    | some v =>
      have ht : opStep s st = { s with
          ORIGINAL_OPERATORS := s.ORIGINAL_OPERATORS ++ [(⟨st.1.name, st.1.ns, v⟩ : OriginalOpInfo)],
          env := setattr s.env st.1 (OpVal.wrap_operator v ⟨st.1.name, st.2⟩) } := by
        rw [opStep_eq, hv]
      rw [ht, ih _ hnd']
      have hcongr : stepRecords (setattr s.env st.1 (OpVal.wrap_operator v ⟨st.1.name, st.2⟩)) rest
          = stepRecords s.env rest := by
        apply stepRecords_congr
        intro x hx
        apply getattr?_setattr_ne
        intro he
        exact hout (he ▸ (List.mem_map.mpr ⟨x, hx, rfl⟩))
      rw [hcongr]
      simp

/-!
Helper lemmas: the patch phase of `patch_torch_operators` as a flat fold.
-/

theorem by_patchspec_eq_foldl (s : PatchState) (ns : Nat) (ps : PatchSpec) :
    patch_namespace_by_patchspec s ns ps = (specSteps ns ps).foldl opStep s := by
  unfold patch_namespace_by_patchspec specSteps
  rw [List.foldl_map]
  rfl

theorem patchMetatype_eq_foldl (s : PatchState) (m : OperatorMetatype) :
    patchMetatype s m = (metatypeSteps m).foldl opStep s := by
  unfold patchMetatype metatypeSteps
  rw [List.foldl_append, List.foldl_append]
  cases m.torch_nn_functional_patch_spec <;> cases m.torch_module_patch_spec <;>
    cases m.torch_tensor_patch_spec <;>
    simp [by_patchspec_eq_foldl]

theorem metaloop_eq_foldl (cfg : List OperatorMetatype) (s : PatchState) :
    cfg.foldl patchMetatype s = (cfg.flatMap metatypeSteps).foldl opStep s := by
  induction cfg generalizing s with
  | nil => rfl
  | cons m rest ih =>
    rw [List.foldl_cons, List.flatMap_cons, List.foldl_append, patchMetatype_eq_foldl, ih]

theorem jitStep_JIT (s : PatchState) : (jitStep s).JIT_ALREADY_WRAPPED = true := by
  by_cases h : s.JIT_ALREADY_WRAPPED
  · simp [jitStep, h]
  · simp [jitStep, h]

theorem jitStep_OPERATORS (s : PatchState) :
    (jitStep s).OPERATORS_ALREADY_WRAPPED = s.OPERATORS_ALREADY_WRAPPED := by
  unfold jitStep patch_torch_jit_script
  by_cases h : s.JIT_ALREADY_WRAPPED
  · simp [h]
  · simp only [h, if_false, Bool.false_eq_true]
    cases getattr? s.env jitScriptKey <;> rfl

theorem jitStep_reg (s : PatchState) :
    (jitStep s).ORIGINAL_OPERATORS = s.ORIGINAL_OPERATORS := by
  unfold jitStep patch_torch_jit_script
  by_cases h : s.JIT_ALREADY_WRAPPED
  · simp [h]
  · simp only [h, if_false, Bool.false_eq_true]
    cases getattr? s.env jitScriptKey <;> rfl

theorem jitStep_env_ne (s : PatchState) (k : OpKey) (h : k ≠ jitScriptKey) :
    getattr? (jitStep s).env k = getattr? s.env k := by
  unfold jitStep patch_torch_jit_script
  by_cases hj : s.JIT_ALREADY_WRAPPED
  · simp [hj]
  · simp only [hj, if_false, Bool.false_eq_true]
    cases hv : getattr? s.env jitScriptKey with
    | none => rfl
    | some v => exact getattr?_setattr_ne _ _ _ _ h

theorem patch_module_call_OPERATORS (s : PatchState) :
    (patch_module_call s).OPERATORS_ALREADY_WRAPPED = s.OPERATORS_ALREADY_WRAPPED := by
  unfold patch_module_call
  cases getattr? s.env moduleCallKey <;> rfl

theorem patch_module_call_JIT (s : PatchState) :
    (patch_module_call s).JIT_ALREADY_WRAPPED = s.JIT_ALREADY_WRAPPED := by
  unfold patch_module_call
  cases getattr? s.env moduleCallKey <;> rfl

theorem patch_module_call_some (s : PatchState) (v : OpVal)
    (h : getattr? s.env moduleCallKey = some v) :
    patch_module_call s = { s with
      ORIGINAL_OPERATORS := s.ORIGINAL_OPERATORS ++ [(⟨"__call__", nsModule, v⟩ : OriginalOpInfo)],
      env := setattr s.env moduleCallKey (OpVal.wrap_module_call v) } := by
  unfold patch_module_call
  rw [h]

theorem patch_module_call_none (s : PatchState)
    (h : getattr? s.env moduleCallKey = none) :
    patch_module_call s = s := by
  unfold patch_module_call
  rw [h]

theorem patch_already (cfg : List OperatorMetatype) (s : PatchState)
    (hops : s.OPERATORS_ALREADY_WRAPPED = true) :
    patch_torch_operators cfg s = jitStep s := by
  unfold patch_torch_operators
  have h1 : (jitStep s).OPERATORS_ALREADY_WRAPPED = true := by
    rw [jitStep_OPERATORS]; exact hops
  simp [h1]

theorem patch_closed (cfg : List OperatorMetatype) (s : PatchState)
    (hops : s.OPERATORS_ALREADY_WRAPPED = false) :
    patch_torch_operators cfg s =
      patch_module_call ((sessionSteps cfg).foldl opStep
        { jitStep s with OPERATORS_ALREADY_WRAPPED := true }) := by
  unfold patch_torch_operators
  have h1 : (jitStep s).OPERATORS_ALREADY_WRAPPED = false := by
    rw [jitStep_OPERATORS]; exact hops
  simp only [h1, if_false, Bool.false_eq_true]
  unfold sessionSteps
  rw [List.foldl_append, metaloop_eq_foldl, List.foldl_cons, List.foldl_nil]
  rfl

theorem patch_OPERATORS (cfg : List OperatorMetatype) (s : PatchState) :
    (patch_torch_operators cfg s).OPERATORS_ALREADY_WRAPPED = true := by
  by_cases hops : s.OPERATORS_ALREADY_WRAPPED
  · rw [patch_already cfg s hops, jitStep_OPERATORS]; exact hops
  · rw [patch_closed cfg s (by simpa using hops), patch_module_call_OPERATORS, phase_OPERATORS]

theorem patch_JIT (cfg : List OperatorMetatype) (s : PatchState) :
    (patch_torch_operators cfg s).JIT_ALREADY_WRAPPED = true := by
  by_cases hops : s.OPERATORS_ALREADY_WRAPPED
  · rw [patch_already cfg s hops, jitStep_JIT]
  · rw [patch_closed cfg s (by simpa using hops), patch_module_call_JIT, phase_JIT]
    show (jitStep s).JIT_ALREADY_WRAPPED = true
    exact jitStep_JIT s

theorem patch_noop (cfg : List OperatorMetatype) (t : PatchState)
    (h1 : t.JIT_ALREADY_WRAPPED = true) (h2 : t.OPERATORS_ALREADY_WRAPPED = true) :
    patch_torch_operators cfg t = t := by
  have hj : jitStep t = t := by unfold jitStep; simp [h1]
  rw [patch_already cfg t h2, hj]

/-- Claim C2: calling `patch_torch_operators` twice in succession yields
exactly the state of calling it once; with the operator flag already set
by the first call, the second returns immediately, so the namespaces, the
registry and every other state component are untouched. -/
theorem patchAll_idempotent (cfg : List OperatorMetatype) (s : PatchState) :
    patch_torch_operators cfg (patch_torch_operators cfg s) = patch_torch_operators cfg s :=
  patch_noop cfg _ (patch_JIT cfg s) (patch_OPERATORS cfg s)

/-!
Helper lemmas: the forward-order restore loop of `unpatch_torch_operators`.
-/

theorem lastRestore_cons (r0 : OriginalOpInfo) (rest : List OriginalOpInfo) (k : OpKey) :
    lastRestore (r0 :: rest) k =
      match lastRestore rest k with
      | some x => some x
      | none => if recordKey r0 = k then some r0 else none := rfl

theorem lastRestore_mem (reg : List OriginalOpInfo) (k : OpKey) (r : OriginalOpInfo)
    (h : lastRestore reg k = some r) : r ∈ reg ∧ recordKey r = k := by
  induction reg with
  | nil => cases h
  | cons r0 rest ih =>
    rw [lastRestore_cons] at h
    cases hr : lastRestore rest k with
    | some x =>
      rw [hr] at h
      simp at h
      subst h
      obtain ⟨hx, hk⟩ := ih hr
      exact ⟨List.mem_cons_of_mem r0 hx, hk⟩
    | none =>
      rw [hr] at h
      by_cases hk : recordKey r0 = k
      · rw [if_pos hk] at h
        simp at h
        subst h
        exact ⟨List.mem_cons_self r0 rest, hk⟩
      · rw [if_neg hk] at h
        simp at h

theorem lastRestore_none (reg : List OriginalOpInfo) (k : OpKey)
    (h : ∀ r ∈ reg, recordKey r ≠ k) : lastRestore reg k = none := by
  induction reg with
  | nil => rfl
  | cons r0 rest ih =>
    rw [lastRestore_cons, ih (fun r hr => h r (List.mem_cons_of_mem r0 hr))]
    simp [h r0 (List.mem_cons_self r0 rest)]

theorem lastRestore_append (a b : List OriginalOpInfo) (k : OpKey) :
    lastRestore (a ++ b) k =
      match lastRestore b k with
      | some x => some x
      | none => lastRestore a k := by
  induction a with
  | nil =>
    simp only [List.nil_append]
    cases lastRestore b k <;> rfl
  | cons r0 rest ih =>
    rw [List.cons_append, lastRestore_cons, ih, lastRestore_cons]
    cases lastRestore b k <;> cases lastRestore rest k <;> rfl

theorem lastRestore_nodup (reg : List OriginalOpInfo) (r : OriginalOpInfo)
    (hnd : (reg.map recordKey).Nodup) (h : r ∈ reg) :
    lastRestore reg (recordKey r) = some r := by
  induction reg with
  | nil => cases h
  | cons r0 rest ih =>
    rw [List.map_cons, List.nodup_cons] at hnd
    obtain ⟨hout, hnd'⟩ := hnd
    rw [lastRestore_cons]
    rcases List.mem_cons.mp h with heq | hmem
    · subst heq
      rw [lastRestore_none rest _ (fun x hx hkx => hout (List.mem_map.mpr ⟨x, hx, hkx⟩))]
      simp
    · rw [ih hnd' hmem]

theorem restore_env (reg : List OriginalOpInfo) (env : Env) (k : OpKey) :
    getattr? (reg.foldl (fun e r => setattr e (recordKey r) r.op) env) k =
      match lastRestore reg k with
      | some r => some r.op
      | none => getattr? env k := by
  induction reg generalizing env with
  | nil => rfl
  | cons r0 rest ih =>
    rw [List.foldl_cons, ih, lastRestore_cons]
    cases hr : lastRestore rest k with
    | some x => rfl
    | none =>
      by_cases hk : recordKey r0 = k
      · rw [if_pos hk]
        show getattr? (setattr env (recordKey r0) r0.op) k = some r0.op
        rw [← hk, getattr?_setattr_self]
      · rw [if_neg hk]
        show getattr? (setattr env (recordKey r0) r0.op) k = getattr? env k
        exact getattr?_setattr_ne _ _ _ _ (fun hh => hk hh.symm)

/-!
Helper lemmas: `unpatch_torch_operators`.
-/

theorem unpatch_noop (s : PatchState) (h : s.OPERATORS_ALREADY_WRAPPED = false) :
    unpatch_torch_operators s = s := by
  unfold unpatch_torch_operators
  simp [h]

theorem unpatch_closed (s : PatchState) (h : s.OPERATORS_ALREADY_WRAPPED = true) :
    unpatch_torch_operators s = { s with
      OPERATORS_ALREADY_WRAPPED := false,
      env := s.ORIGINAL_OPERATORS.foldl (fun e r => setattr e (recordKey r) r.op) s.env } := by
  unfold unpatch_torch_operators
  simp [h]

theorem unpatch_OPERATORS (s : PatchState) :
    (unpatch_torch_operators s).OPERATORS_ALREADY_WRAPPED = false := by
  by_cases h : s.OPERATORS_ALREADY_WRAPPED
  · rw [unpatch_closed s h]
  · rw [unpatch_noop s (by simpa using h)]
    simpa using h

/-- Claim C10: when the stored original compilation entry point raises
inside the JIT shim, the shim does not re-apply patching before the
exception propagates: the exception carries exactly the state produced by
`unpatch_torch_operators`, and that state's operator flag is false, so the
operators remain unpatched. -/
theorem jit_shim_failure_leaves_unpatched (cfg : List OperatorMetatype) (s : PatchState) :
    torch_jit_script_wrapper cfg true s = Except.error (unpatch_torch_operators s) ∧
    (unpatch_torch_operators s).OPERATORS_ALREADY_WRAPPED = false :=
  ⟨rfl, unpatch_OPERATORS s⟩

/-!
Helper lemmas: session keys.
-/

theorem specSteps_ns (ns : Nat) (ps : PatchSpec) (st : OpKey × Option CustomTraceFunction)
    (h : st ∈ specSteps ns ps) : st.1.ns = ns := by
  unfold specSteps at h
  rw [List.mem_map] at h
  obtain ⟨nm, _, heq⟩ := h
  rw [← heq]

theorem sessionSteps_ns (cfg : List OperatorMetatype) (st : OpKey × Option CustomTraceFunction)
    (h : st ∈ sessionSteps cfg) :
    st.1.ns = nsF ∨ st.1.ns = nsTorch ∨ st.1.ns = nsTracedTensor := by
  unfold sessionSteps at h
  rcases List.mem_append.mp h with h1 | h2
  · rw [List.mem_flatMap] at h1
    obtain ⟨m, hm, hst⟩ := h1
    unfold metatypeSteps at hst
    rcases List.mem_append.mp hst with h3 | h4
    · rcases List.mem_append.mp h3 with h5 | h6
      · cases hspec : m.torch_nn_functional_patch_spec with
        | some ps => rw [hspec] at h5; exact Or.inl (specSteps_ns _ _ _ h5)
        | none => rw [hspec] at h5; cases h5
      · cases hspec : m.torch_module_patch_spec with
        | some ps => rw [hspec] at h6; exact Or.inr (Or.inl (specSteps_ns _ _ _ h6))
        | none => rw [hspec] at h6; cases h6
    · cases hspec : m.torch_tensor_patch_spec with
      | some ps => rw [hspec] at h4; exact Or.inr (Or.inr (specSteps_ns _ _ _ h4))
      | none => rw [hspec] at h4; cases h4
  · rw [List.mem_singleton] at h2
    subst h2
    exact Or.inr (Or.inr rfl)

theorem allSessionKeys_ne_jit (cfg : List OperatorMetatype) (k : OpKey)
    (h : k ∈ allSessionKeys cfg) : k ≠ jitScriptKey := by
  unfold allSessionKeys at h
  rcases List.mem_append.mp h with h1 | h2
  · rw [List.mem_map] at h1
    obtain ⟨st, hst, heq⟩ := h1
    subst heq
    intro he
    have hns := sessionSteps_ns cfg st hst
    rw [he] at hns
    rcases hns with hns | hns | hns <;> exact absurd hns (by decide)
  · rw [List.mem_singleton] at h2
    subst h2
    decide

theorem nodup_parts (cfg : List OperatorMetatype) (hnd : (allSessionKeys cfg).Nodup) :
    ((sessionSteps cfg).map Prod.fst).Nodup ∧
      moduleCallKey ∉ (sessionSteps cfg).map Prod.fst := by
  unfold allSessionKeys at hnd
  rw [List.nodup_append] at hnd
  exact ⟨hnd.1, fun hm => hnd.2.2 hm (List.mem_singleton.mpr rfl)⟩

theorem steps_mem_split (steps : List (OpKey × Option CustomTraceFunction))
    (k : OpKey) (fn : Option CustomTraceFunction)
    (hnd : (steps.map Prod.fst).Nodup)
    (hmem : ((k, fn) : OpKey × Option CustomTraceFunction) ∈ steps) :
    ∃ pre post, steps = pre ++ (k, fn) :: post ∧
      k ∉ pre.map Prod.fst ∧ k ∉ post.map Prod.fst := by
  obtain ⟨pre, post, heq⟩ := List.append_of_mem hmem
  subst heq
  rw [List.map_append, List.map_cons, List.nodup_append] at hnd
  obtain ⟨h1, h2, h3⟩ := hnd
  rw [List.nodup_cons] at h2
  refine ⟨pre, post, rfl, ?_, h2.1⟩
  intro hk
  exact (h3 hk) (List.mem_cons_self _ _)

theorem lastRestore_isSome (reg : List OriginalOpInfo) (r : OriginalOpInfo) (h : r ∈ reg) :
    (lastRestore reg (recordKey r)).isSome = true := by
  induction reg with
  | nil => cases h
  | cons r0 rest ih =>
    rw [lastRestore_cons]
    cases hr : lastRestore rest (recordKey r) with
    | some x => rfl
    | none =>
      rcases List.mem_cons.mp h with heq | hmem
      · simp [heq]
      · have hi := ih hmem
        rw [hr] at hi
        cases hi

/-!
Invariant preservation.
-/

theorem consistent_of_inv (cfg : List OperatorMetatype) (s : PatchState)
    (h : StrongInv cfg s) : flagRegistryConsistent s = true := by
  obtain ⟨hmc, hkeys, htrue, hfalse⟩ := h
  unfold flagRegistryConsistent
  cases hops : s.OPERATORS_ALREADY_WRAPPED with
  | true =>
    obtain ⟨hne, hall⟩ := htrue hops
    have h1 : s.ORIGINAL_OPERATORS.isEmpty = false := by
      cases hreg : s.ORIGINAL_OPERATORS with
      | nil => exact absurd hreg hne
      | cons a l => rfl
    have h2 : s.ORIGINAL_OPERATORS.all (recordInstalled s.env) = true :=
      List.all_eq_true.mpr (fun r hr => hall r hr)
    rw [h1, h2]
    rfl
  | false =>
    cases hreg : s.ORIGINAL_OPERATORS with
    | nil => rfl
    | cons r0 rest =>
      have hr0 : getattr? s.env (recordKey r0) = some r0.op :=
        hfalse hops r0 (by rw [hreg]; exact List.mem_cons_self _ _)
      have hinst : recordInstalled s.env r0 = false := by
        unfold recordInstalled
        rw [hr0]
        exact isWrapperOver_self_false r0.op
      have hall : (r0 :: rest).all (recordInstalled s.env) = false := by
        rw [List.all_cons, hinst]
        rfl
      rw [hall]
      rfl

theorem StrongInv_unpatch (cfg : List OperatorMetatype) (s : PatchState)
    (h : StrongInv cfg s) : StrongInv cfg (unpatch_torch_operators s) := by
  obtain ⟨hmc, hkeys, htrue, hfalse⟩ := h
  by_cases hops : s.OPERATORS_ALREADY_WRAPPED
  · obtain ⟨hne, hall⟩ := htrue hops
    rw [unpatch_closed s hops]
    refine ⟨?_, ?_, ?_, ?_⟩
    · show (getattr? (s.ORIGINAL_OPERATORS.foldl (fun e r => setattr e (recordKey r) r.op) s.env)
        moduleCallKey).isSome = true
      rw [restore_env]
      cases hr : lastRestore s.ORIGINAL_OPERATORS moduleCallKey with
      | some x => rfl
      | none => exact hmc
    · exact hkeys
    · intro habs
      simp at habs
    · intro _ r hr
      show getattr? (s.ORIGINAL_OPERATORS.foldl (fun e r => setattr e (recordKey r) r.op) s.env)
        (recordKey r) = some r.op
      rw [restore_env]
      cases hlr : lastRestore s.ORIGINAL_OPERATORS (recordKey r) with
      | none =>
        have hs := lastRestore_isSome s.ORIGINAL_OPERATORS r hr
        rw [hlr] at hs
        cases hs
      | some x =>
        obtain ⟨hxmem, hxkey⟩ := lastRestore_mem _ _ _ hlr
        have hx1 := hall x hxmem
        have hr1 := hall r hr
        unfold recordInstalled at hx1 hr1
        rw [hxkey] at hx1
        cases hv : getattr? s.env (recordKey r) with
        | none =>
          rw [hv] at hr1
          cases hr1
        | some v =>
          rw [hv] at hx1 hr1
          have hxop : x.op = r.op := isWrapperOver_functional v x.op r.op hx1 hr1
          show some x.op = some r.op
          rw [hxop]
  · rw [unpatch_noop s (by simpa using hops)]
    exact ⟨hmc, hkeys, htrue, hfalse⟩

theorem StrongInv_patch (cfg : List OperatorMetatype) (s : PatchState)
    (hnd : (allSessionKeys cfg).Nodup) (h : StrongInv cfg s) :
    StrongInv cfg (patch_torch_operators cfg s) := by
  obtain ⟨hmc, hkeys, htrue, hfalse⟩ := h
  obtain ⟨hndsteps, hmcout⟩ := nodup_parts cfg hnd
  by_cases hops : s.OPERATORS_ALREADY_WRAPPED
  · -- already wrapped: only the jit prologue may run
    rw [patch_already cfg s hops]
    have henv : ∀ k : OpKey, k ≠ jitScriptKey → getattr? (jitStep s).env k = getattr? s.env k :=
      fun k hk => jitStep_env_ne s k hk
    have hregj : (jitStep s).ORIGINAL_OPERATORS = s.ORIGINAL_OPERATORS := jitStep_reg s
    have hopsj : (jitStep s).OPERATORS_ALREADY_WRAPPED = true := by
      rw [jitStep_OPERATORS]; exact hops
    refine ⟨?_, ?_, ?_, ?_⟩
    · rw [henv moduleCallKey (by decide)]
      exact hmc
    · rw [hregj]; exact hkeys
    · intro _
      obtain ⟨hne, hall⟩ := htrue hops
      rw [hregj]
      refine ⟨hne, fun r hr => ?_⟩
      unfold recordInstalled
      rw [henv (recordKey r) (allSessionKeys_ne_jit cfg (recordKey r) (hkeys r hr))]
      have hi := hall r hr
      unfold recordInstalled at hi
      exact hi
    · intro habs
      rw [hopsj] at habs
      cases habs
  · -- actual patch session
    have hops' : s.OPERATORS_ALREADY_WRAPPED = false := by simpa using hops
    rw [patch_closed cfg s hops']
    set s2 : PatchState := { jitStep s with OPERATORS_ALREADY_WRAPPED := true } with hs2
    set u : PatchState := (sessionSteps cfg).foldl opStep s2 with hu
    have hs2env : ∀ k : OpKey, k ≠ jitScriptKey → getattr? s2.env k = getattr? s.env k := by
      intro k hk
      rw [hs2]
      show getattr? (jitStep s).env k = getattr? s.env k
      exact jitStep_env_ne s k hk
    have hs2reg : s2.ORIGINAL_OPERATORS = s.ORIGINAL_OPERATORS := by
      rw [hs2]
      show (jitStep s).ORIGINAL_OPERATORS = _
      exact jitStep_reg s
    have humc : getattr? u.env moduleCallKey = getattr? s.env moduleCallKey := by
      rw [hu, phase_env_untouched _ _ _ hmcout, hs2env moduleCallKey (by decide)]
    have hureg : u.ORIGINAL_OPERATORS =
        s.ORIGINAL_OPERATORS ++ stepRecords s2.env (sessionSteps cfg) := by
      rw [hu, phase_reg _ _ hndsteps, hs2reg]
    obtain ⟨mcv, hmcv⟩ : ∃ v, getattr? s.env moduleCallKey = some v := by
      cases hq : getattr? s.env moduleCallKey with
      | some v => exact ⟨v, rfl⟩
      | none => rw [hq] at hmc; cases hmc
    have humc' : getattr? u.env moduleCallKey = some mcv := by rw [humc, hmcv]
    rw [patch_module_call_some u mcv humc']
    refine ⟨?_, ?_, ?_, ?_⟩
    · show (getattr? (setattr u.env moduleCallKey (OpVal.wrap_module_call mcv))
        moduleCallKey).isSome = true
      rw [getattr?_setattr_self]
      rfl
    · intro r hr
      show recordKey r ∈ allSessionKeys cfg
      rcases List.mem_append.mp hr with hr1 | hr2
      · rw [hureg] at hr1
        rcases List.mem_append.mp hr1 with hold | hnew
        · exact hkeys r hold
        · obtain ⟨st, hst, hstk, _⟩ := stepRecords_mem _ _ _ hnew
          unfold allSessionKeys
          exact List.mem_append.mpr (Or.inl (hstk ▸ List.mem_map.mpr ⟨st, hst, rfl⟩))
      · rw [List.mem_singleton] at hr2
        subst hr2
        unfold allSessionKeys
        exact List.mem_append.mpr (Or.inr (List.mem_singleton.mpr rfl))
    · intro _
      constructor
      · simp
      · intro r hr
        unfold recordInstalled
        rcases List.mem_append.mp hr with hr1 | hr2
        · rw [hureg] at hr1
          rcases List.mem_append.mp hr1 with hold | hnew
          · -- a record of an earlier session
            have hrk := hkeys r hold
            have hrne : recordKey r ≠ jitScriptKey := allSessionKeys_ne_jit cfg _ hrk
            have hrop : getattr? s.env (recordKey r) = some r.op := hfalse hops' r hold
            unfold allSessionKeys at hrk
            rcases List.mem_append.mp hrk with hks | hkm
            · -- its key is patched by a session step
              rw [List.mem_map] at hks
              obtain ⟨st, hst, hstk⟩ := hks
              obtain ⟨pre, post, hsplit, hpre, hpost⟩ :=
                steps_mem_split (sessionSteps cfg) st.1 st.2 hndsteps hst
              have hv2 : getattr? s2.env st.1 = some r.op := by
                rw [hstk, hs2env _ hrne]
                exact hrop
              have hut : getattr? u.env st.1 =
                  some (OpVal.wrap_operator r.op ⟨st.1.name, st.2⟩) := by
                rw [hu, hsplit]
                exact phase_env_touched pre post st.1 st.2 s2 r.op hpre hpost hv2
              have hnemc : recordKey r ≠ moduleCallKey := by
                intro he
                exact hmcout (he ▸ hstk ▸ List.mem_map.mpr ⟨st, hst, rfl⟩)
              rw [getattr?_setattr_ne _ _ _ _ hnemc, ← hstk, hut]
              exact isWrapperOver_wrap_operator r.op _
            · -- its key is the module-call key
              rw [List.mem_singleton] at hkm
              rw [hkm, getattr?_setattr_self]
              have hropmc : r.op = mcv := by
                rw [hkm] at hrop
                rw [hrop] at hmcv
                cases hmcv
                rfl
              rw [hropmc]
              exact isWrapperOver_wrap_module_call mcv
          · -- a record appended by this session's steps
            obtain ⟨st, hst, hstk, hstv⟩ := stepRecords_mem _ _ _ hnew
            obtain ⟨pre, post, hsplit, hpre, hpost⟩ :=
              steps_mem_split (sessionSteps cfg) st.1 st.2 hndsteps hst
            have hut : getattr? u.env st.1 =
                some (OpVal.wrap_operator r.op ⟨st.1.name, st.2⟩) := by
              rw [hu, hsplit]
              exact phase_env_touched pre post st.1 st.2 s2 r.op hpre hpost hstv
            have hnemc : recordKey r ≠ moduleCallKey := by
              intro he
              exact hmcout (he ▸ hstk ▸ List.mem_map.mpr ⟨st, hst, rfl⟩)
            rw [getattr?_setattr_ne _ _ _ _ hnemc, ← hstk, hut]
            exact isWrapperOver_wrap_operator r.op _
        · -- the module-call record of this session
          rw [List.mem_singleton] at hr2
          subst hr2
          rw [show recordKey (⟨"__call__", nsModule, mcv⟩ : OriginalOpInfo) = moduleCallKey from rfl,
            getattr?_setattr_self]
          exact isWrapperOver_wrap_module_call mcv
    · intro habs
      have huops : u.OPERATORS_ALREADY_WRAPPED = true := by
        rw [hu, phase_OPERATORS]
      rw [show ({ u with
          ORIGINAL_OPERATORS := u.ORIGINAL_OPERATORS ++
            [(⟨"__call__", nsModule, mcv⟩ : OriginalOpInfo)],
          env := setattr u.env moduleCallKey (OpVal.wrap_module_call mcv) } :
          PatchState).OPERATORS_ALREADY_WRAPPED = u.OPERATORS_ALREADY_WRAPPED from rfl,
        huops] at habs
      cases habs

theorem StrongInv_runActions (cfg : List OperatorMetatype) (acts : List PatchAction)
    (s : PatchState) (hnd : (allSessionKeys cfg).Nodup) (h : StrongInv cfg s) :
    StrongInv cfg (runActions cfg acts s) := by
  induction acts generalizing s with
  | nil => exact h
  | cons a rest ih =>
    show StrongInv cfg (rest.foldl (runAction cfg) (runAction cfg s a))
    apply ih
    cases a with
    | patchAll => exact StrongInv_patch cfg s hnd h
    | unpatchAll => exact StrongInv_unpatch cfg s h

/-- Claim C1 (counterexample): with a configuration that patches the same
present attribute twice in one session, a single `patch_torch_operators`
call from the module-load state leaves the flag up while the first
`torch.relu` record's name holds a double wrapper, whose closure points to
the inner wrapper rather than to that record's original — the claimed
flag/registry consistency is false at this point of the lifetime. -/
theorem lifecycle_consistency_counterexample :
    flagRegistryConsistent (runActions cfgDup [PatchAction.patchAll] sEx) = false := by
  decide

/-- Claim C1 (amended): provided no (namespace, name) target is patched
twice within one session - the configured step keys plus the implicit
`TracedTensor.__repr__` and `Module.__call__` targets are pairwise
distinct - the registry/flag consistency holds at every point of the
lifetime: after any sequence of `patch_torch_operators` /
`unpatch_torch_operators` calls from the module-load state (empty
registry, flag down, `Module.__call__` present), the operator flag is true
iff the registry is non-empty and every recorded name holds a wrapper
closing over that record's original. -/
theorem lifecycle_flag_registry_consistent (cfg : List OperatorMetatype) (s0 : PatchState)
    (acts : List PatchAction)
    (hnd : (allSessionKeys cfg).Nodup)
    (hreg : s0.ORIGINAL_OPERATORS = [])
    (hflag : s0.OPERATORS_ALREADY_WRAPPED = false)
    (hmc : (getattr? s0.env moduleCallKey).isSome = true) :
    flagRegistryConsistent (runActions cfg acts s0) = true := by
  have hinv : StrongInv cfg s0 := by
    refine ⟨hmc, ?_, ?_, ?_⟩
    · rw [hreg]; intro r hr; cases hr
    · intro habs; rw [hflag] at habs; cases habs
    · intro _; rw [hreg]; intro r hr; cases hr
  exact consistent_of_inv cfg _ (StrongInv_runActions cfg acts s0 hnd hinv)

/-- Witness for the amended C1 theorem at a concrete configuration, state
and call sequence. -/
theorem lifecycle_flag_registry_consistent_witness :
    (allSessionKeys cfgW).Nodup ∧ sEx.ORIGINAL_OPERATORS = [] ∧
    sEx.OPERATORS_ALREADY_WRAPPED = false ∧
    (getattr? sEx.env moduleCallKey).isSome = true ∧
    flagRegistryConsistent (runActions cfgW
      [PatchAction.patchAll, PatchAction.unpatchAll, PatchAction.patchAll] sEx) = true :=
  ⟨by decide, rfl, rfl, by decide,
    lifecycle_flag_registry_consistent cfgW sEx
      [PatchAction.patchAll, PatchAction.unpatchAll, PatchAction.patchAll]
      (by decide) rfl rfl (by decide)⟩

theorem lastRestore_singleton (r : OriginalOpInfo) (k : OpKey) :
    lastRestore [r] k = if recordKey r = k then some r else none := rfl

theorem stepRecords_keys_sublist (env : Env) (steps : List (OpKey × Option CustomTraceFunction)) :
    ((stepRecords env steps).map recordKey).Sublist (steps.map Prod.fst) := by
  induction steps with
  | nil => simp [stepRecords_nil]
  | cons st rest ih =>
    rw [stepRecords_cons, List.map_append, List.map_cons]
    cases getattr? env st.1 with
    | none =>
      simp only [List.map_nil, List.nil_append]
      exact ih.trans (List.sublist_cons_self st.1 _)
    | some v =>
      simp only [List.map_cons, List.map_nil]
      exact ih.cons₂ st.1

theorem patch_module_call_reg (s : PatchState) :
    (patch_module_call s).ORIGINAL_OPERATORS =
      s.ORIGINAL_OPERATORS ++
        (match getattr? s.env moduleCallKey with
          | some v => [(⟨"__call__", nsModule, v⟩ : OriginalOpInfo)]
          | none => []) := by
  unfold patch_module_call
  cases getattr? s.env moduleCallKey <;> simp

/-- Claim C3 (counterexample): with a configuration that patches
`torch.relu` twice in one session, `patch_torch_operators` followed by
`unpatch_torch_operators` does not restore `torch.relu` to its value
before the session: the forward-order restore loop leaves the inner
wrapper installed. -/
theorem roundtrip_counterexample :
    getattr? ((unpatch_torch_operators (patch_torch_operators cfgDup sEx)).env)
        ⟨nsTorch, "relu"⟩ ≠ getattr? sEx.env ⟨nsTorch, "relu"⟩ := by
  decide

/-- Claim C3 (amended): provided no (namespace, name) target is patched
twice within the session (the session's step keys plus the implicit
`TracedTensor.__repr__` and `Module.__call__` targets are pairwise
distinct), every attribute successfully patched during
`patch_torch_operators` is restored by the following
`unpatch_torch_operators` to exactly (reference-identically) its value
before the session started. -/
theorem patch_unpatch_roundtrip (cfg : List OperatorMetatype) (s : PatchState) (k : OpKey)
    (hnd : (allSessionKeys cfg).Nodup)
    (hflag : s.OPERATORS_ALREADY_WRAPPED = false)
    (hk : k ∈ allSessionKeys cfg)
    (hp : (getattr? s.env k).isSome = true) :
    getattr? ((unpatch_torch_operators (patch_torch_operators cfg s)).env) k =
      getattr? s.env k := by
  obtain ⟨hndsteps, hmcout⟩ := nodup_parts cfg hnd
  obtain ⟨v, hv⟩ : ∃ v, getattr? s.env k = some v := by
    cases hq : getattr? s.env k with
    | some w => exact ⟨w, rfl⟩
    | none => rw [hq] at hp; cases hp
  have hkjit : k ≠ jitScriptKey := allSessionKeys_ne_jit cfg k hk
  rw [patch_closed cfg s hflag]
  set s2 : PatchState := { jitStep s with OPERATORS_ALREADY_WRAPPED := true } with hs2
  set u : PatchState := (sessionSteps cfg).foldl opStep s2 with hu
  have hs2env : ∀ k' : OpKey, k' ≠ jitScriptKey → getattr? s2.env k' = getattr? s.env k' := by
    intro k' hk'
    rw [hs2]
    show getattr? (jitStep s).env k' = getattr? s.env k'
    exact jitStep_env_ne s k' hk'
  have hs2reg : s2.ORIGINAL_OPERATORS = s.ORIGINAL_OPERATORS := by
    rw [hs2]
    show (jitStep s).ORIGINAL_OPERATORS = _
    exact jitStep_reg s
  have hureg : u.ORIGINAL_OPERATORS =
      s.ORIGINAL_OPERATORS ++ stepRecords s2.env (sessionSteps cfg) := by
    rw [hu, phase_reg _ _ hndsteps, hs2reg]
  have huops : u.OPERATORS_ALREADY_WRAPPED = true := by
    rw [hu, phase_OPERATORS]
  have hrecnd : ((stepRecords s2.env (sessionSteps cfg)).map recordKey).Nodup :=
    hndsteps.sublist (stepRecords_keys_sublist s2.env (sessionSteps cfg))
  set t : PatchState := patch_module_call u with htd
  have htops : t.OPERATORS_ALREADY_WRAPPED = true := by
    rw [htd, patch_module_call_OPERATORS]
    exact huops
  have htreg : t.ORIGINAL_OPERATORS = u.ORIGINAL_OPERATORS ++
      (match getattr? u.env moduleCallKey with
        | some w => [(⟨"__call__", nsModule, w⟩ : OriginalOpInfo)]
        | none => []) := by
    rw [htd]
    exact patch_module_call_reg u
  rw [unpatch_closed t htops]
  show getattr? (t.ORIGINAL_OPERATORS.foldl (fun e r => setattr e (recordKey r) r.op) t.env) k
    = getattr? s.env k
  rw [restore_env]
  unfold allSessionKeys at hk
  rcases List.mem_append.mp hk with hks | hkm
  · -- k is a session step key
    have hkmc : k ≠ moduleCallKey := fun he => hmcout (by rw [← he]; exact hks)
    obtain ⟨st, hst, hstk⟩ := List.mem_map.mp hks
    have hv2 : getattr? s2.env k = some v := by
      rw [hs2env k hkjit]
      exact hv
    have hrec : (⟨k.name, k.ns, v⟩ : OriginalOpInfo) ∈ stepRecords s2.env (sessionSteps cfg) := by
      apply stepRecords_mem_intro s2.env _ k st.2 v _ hv2
      rw [← hstk]
      exact hst
    have hlaststep : lastRestore (stepRecords s2.env (sessionSteps cfg)) k =
        some ⟨k.name, k.ns, v⟩ :=
      lastRestore_nodup _ _ hrecnd hrec
    have hlr : lastRestore t.ORIGINAL_OPERATORS k = some ⟨k.name, k.ns, v⟩ := by
      rw [htreg, hureg, lastRestore_append]
      have hmctail : lastRestore
          (match getattr? u.env moduleCallKey with
            | some w => [(⟨"__call__", nsModule, w⟩ : OriginalOpInfo)]
            | none => []) k = none := by
        cases getattr? u.env moduleCallKey with
        | some w =>
          rw [lastRestore_singleton]
          have hne : ¬ (recordKey (⟨"__call__", nsModule, w⟩ : OriginalOpInfo) = k) := by
            intro he
            exact hkmc (by rw [← he]; rfl)
          rw [if_neg hne]
        | none => rfl
      rw [hmctail, lastRestore_append, hlaststep]
    rw [hlr, hv]
  · -- k is the module-call key
    rw [List.mem_singleton] at hkm
    subst hkm
    have humcv : getattr? u.env moduleCallKey = some v := by
      rw [hu, phase_env_untouched _ _ _ hmcout, hs2env moduleCallKey (by decide)]
      exact hv
    have hlr : lastRestore t.ORIGINAL_OPERATORS moduleCallKey =
        some ⟨"__call__", nsModule, v⟩ := by
      rw [htreg, humcv, lastRestore_append, lastRestore_singleton,
        if_pos (show recordKey (⟨"__call__", nsModule, v⟩ : OriginalOpInfo) = moduleCallKey
          from rfl)]
    rw [hlr, hv]

/-- Witness for the amended C3 theorem at a concrete configuration, state
and patched key. -/
theorem patch_unpatch_roundtrip_witness :
    (allSessionKeys cfgW).Nodup ∧ sEx.OPERATORS_ALREADY_WRAPPED = false ∧
    (⟨nsTorch, "relu"⟩ : OpKey) ∈ allSessionKeys cfgW ∧
    (getattr? sEx.env ⟨nsTorch, "relu"⟩).isSome = true ∧
    getattr? ((unpatch_torch_operators (patch_torch_operators cfgW sEx)).env)
        ⟨nsTorch, "relu"⟩ = getattr? sEx.env ⟨nsTorch, "relu"⟩ :=
  ⟨by decide, rfl, by decide, by decide,
    patch_unpatch_roundtrip cfgW sEx ⟨nsTorch, "relu"⟩ (by decide) rfl (by decide) (by decide)⟩

/-!
Helper lemmas: the fallible patch run.
-/

theorem except_bind_pres (P : PatchState → Prop) (e : Except PatchState PatchState)
    (g : PatchState → Except PatchState PatchState)
    (he : (∀ t, e = Except.ok t → P t) ∧ (∀ t, e = Except.error t → P t))
    (hg : ∀ s', P s' →
      (∀ t, g s' = Except.ok t → P t) ∧ (∀ t, g s' = Except.error t → P t)) :
    (∀ t, (e >>= g) = Except.ok t → P t) ∧ (∀ t, (e >>= g) = Except.error t → P t) := by
  cases e with
  | error x =>
    constructor
    · intro t ht
      exact Except.noConfusion ht
    · intro t ht
      have ht' : (Except.error x : Except PatchState PatchState) = Except.error t := ht
      injection ht' with h
      subst h
      exact he.2 x rfl
  | ok s' =>
    exact hg s' (he.1 s' rfl)

theorem foldlM_except_pres {α : Type _} (f : PatchState → α → Except PatchState PatchState)
    (P : PatchState → Prop)
    (hf : ∀ s a, P s →
      (∀ t, f s a = Except.ok t → P t) ∧ (∀ t, f s a = Except.error t → P t)) :
    ∀ (l : List α) (s : PatchState), P s →
      (∀ t, l.foldlM f s = Except.ok t → P t) ∧
      (∀ t, l.foldlM f s = Except.error t → P t) := by
  intro l
  induction l with
  | nil =>
    intro s hs
    constructor
    · intro t ht
      rw [List.foldlM_nil] at ht
      have ht' : (Except.ok s : Except PatchState PatchState) = Except.ok t := ht
      injection ht' with h
      subst h
      exact hs
    · intro t ht
      rw [List.foldlM_nil] at ht
      exact Except.noConfusion ht
  | cons a l ih =>
    intro s hs
    rw [List.foldlM_cons]
    exact except_bind_pres P (f s a) (fun s' => l.foldlM f s') (hf s a hs)
      (fun s' hs' => ih s' hs')

theorem opname_f_pres (fails : FailOracle) (s : PatchState) (ns : Nat)
    (i : PatchedOperatorInfo)
    (hs : s.JIT_ALREADY_WRAPPED = true ∧ s.OPERATORS_ALREADY_WRAPPED = true) :
    (∀ t, patch_namespace_opname_f fails s ns i = Except.ok t →
      t.JIT_ALREADY_WRAPPED = true ∧ t.OPERATORS_ALREADY_WRAPPED = true) ∧
    (∀ t, patch_namespace_opname_f fails s ns i = Except.error t →
      t.JIT_ALREADY_WRAPPED = true ∧ t.OPERATORS_ALREADY_WRAPPED = true) := by
  unfold patch_namespace_opname_f
  by_cases hf : fails ⟨ns, i.name⟩
  · rw [if_pos hf]
    constructor
    · intro t ht
      exact Except.noConfusion ht
    · intro t ht
      injection ht with h
      subst h
      exact hs
  · rw [if_neg hf]
    constructor
    · intro t ht
      injection ht with h
      subst h
      exact ⟨by rw [opname_JIT]; exact hs.1, by rw [opname_OPERATORS]; exact hs.2⟩
    · intro t ht
      exact Except.noConfusion ht

theorem by_patchspec_f_pres (fails : FailOracle) (ns : Nat) (ps : PatchSpec) (s : PatchState)
    (hs : s.JIT_ALREADY_WRAPPED = true ∧ s.OPERATORS_ALREADY_WRAPPED = true) :
    (∀ t, patch_namespace_by_patchspec_f fails s ns ps = Except.ok t →
      t.JIT_ALREADY_WRAPPED = true ∧ t.OPERATORS_ALREADY_WRAPPED = true) ∧
    (∀ t, patch_namespace_by_patchspec_f fails s ns ps = Except.error t →
      t.JIT_ALREADY_WRAPPED = true ∧ t.OPERATORS_ALREADY_WRAPPED = true) := by
  unfold patch_namespace_by_patchspec_f
  exact foldlM_except_pres _
    (fun st => st.JIT_ALREADY_WRAPPED = true ∧ st.OPERATORS_ALREADY_WRAPPED = true)
    (fun s' nm hs' => opname_f_pres fails s' ns ⟨nm, ps.custom_trace_fn⟩ hs')
    ps.underlying_function_names s hs

theorem stage_f_pres (fails : FailOracle) (ns : Nat) (opt : Option PatchSpec) (s : PatchState)
    (e : Except PatchState PatchState)
    (hemat : e = match opt with
      | some ps => patch_namespace_by_patchspec_f fails s ns ps
      | none => pure s)
    (hs : s.JIT_ALREADY_WRAPPED = true ∧ s.OPERATORS_ALREADY_WRAPPED = true) :
    (∀ t, e = Except.ok t →
      t.JIT_ALREADY_WRAPPED = true ∧ t.OPERATORS_ALREADY_WRAPPED = true) ∧
    (∀ t, e = Except.error t →
      t.JIT_ALREADY_WRAPPED = true ∧ t.OPERATORS_ALREADY_WRAPPED = true) := by
  subst hemat
  cases opt with
  | some ps => exact by_patchspec_f_pres fails ns ps s hs
  | none =>
    constructor
    · intro t ht
      have ht' : (Except.ok s : Except PatchState PatchState) = Except.ok t := ht
      injection ht' with h
      subst h
      exact hs
    · intro t ht
      exact Except.noConfusion ht

theorem patchMetatype_f_pres (fails : FailOracle) (s : PatchState) (m : OperatorMetatype)
    (hs : s.JIT_ALREADY_WRAPPED = true ∧ s.OPERATORS_ALREADY_WRAPPED = true) :
    (∀ t, patchMetatype_f fails s m = Except.ok t →
      t.JIT_ALREADY_WRAPPED = true ∧ t.OPERATORS_ALREADY_WRAPPED = true) ∧
    (∀ t, patchMetatype_f fails s m = Except.error t →
      t.JIT_ALREADY_WRAPPED = true ∧ t.OPERATORS_ALREADY_WRAPPED = true) := by
  unfold patchMetatype_f
  apply except_bind_pres _ _ _
    (stage_f_pres fails nsF m.torch_nn_functional_patch_spec s _ rfl hs)
  intro s1 hs1
  apply except_bind_pres _ _ _
    (stage_f_pres fails nsTorch m.torch_module_patch_spec s1 _ rfl hs1)
  intro s2 hs2
  exact stage_f_pres fails nsTracedTensor m.torch_tensor_patch_spec s2 _ rfl hs2

/-- Claim C4: the operator flag is set true before the first operator is
patched, so when an exception raised while patching one operator aborts
the remaining loop of `patch_torch_operators`, the escaped state has the
flag up, and every subsequent `patch_torch_operators` call (with any
configuration) returns that state unchanged - the remaining patches are
never completed. -/
theorem patchAll_error_aborts_and_poisons (fails : FailOracle) (cfg : List OperatorMetatype)
    (s e : PatchState)
    (hflag : s.OPERATORS_ALREADY_WRAPPED = false)
    (herr : patch_torch_operators_f fails cfg s = Except.error e) :
    e.OPERATORS_ALREADY_WRAPPED = true ∧ ∀ cfg2, patch_torch_operators cfg2 e = e := by
  unfold patch_torch_operators_f at herr
  have h1 : (jitStep s).OPERATORS_ALREADY_WRAPPED = false := by
    rw [jitStep_OPERATORS]; exact hflag
  simp only [h1, if_false, Bool.false_eq_true] at herr
  have hP2 : ({ jitStep s with OPERATORS_ALREADY_WRAPPED := true } :
      PatchState).JIT_ALREADY_WRAPPED = true ∧
      ({ jitStep s with OPERATORS_ALREADY_WRAPPED := true } :
      PatchState).OPERATORS_ALREADY_WRAPPED = true := by
    constructor
    · show (jitStep s).JIT_ALREADY_WRAPPED = true
      exact jitStep_JIT s
    · rfl
  have hpres := except_bind_pres
    (fun st => st.JIT_ALREADY_WRAPPED = true ∧ st.OPERATORS_ALREADY_WRAPPED = true)
    (cfg.foldlM (patchMetatype_f fails) { jitStep s with OPERATORS_ALREADY_WRAPPED := true })
    (fun s3 => patch_namespace_opname_f fails s3 nsTracedTensor
        ⟨"__repr__", some CustomTraceFunction.ForwardTraceOnly⟩ >>=
      fun s4 => pure (patch_module_call s4))
    (foldlM_except_pres (patchMetatype_f fails)
      (fun st => st.JIT_ALREADY_WRAPPED = true ∧ st.OPERATORS_ALREADY_WRAPPED = true)
      (fun s' m hs' => patchMetatype_f_pres fails s' m hs')
      cfg { jitStep s with OPERATORS_ALREADY_WRAPPED := true } hP2)
    (fun s3 hs3 => except_bind_pres _ _ _
      (opname_f_pres fails s3 nsTracedTensor
        ⟨"__repr__", some CustomTraceFunction.ForwardTraceOnly⟩ hs3)
      (fun s4 hs4 => by
        constructor
        · intro t ht
          have ht' : (Except.ok (patch_module_call s4) :
              Except PatchState PatchState) = Except.ok t := ht
          injection ht' with h
          subst h
          exact ⟨by rw [patch_module_call_JIT]; exact hs4.1,
            by rw [patch_module_call_OPERATORS]; exact hs4.2⟩
        · intro t ht
          exact Except.noConfusion ht))
  have hPe := hpres.2 e herr
  exact ⟨hPe.2, fun cfg2 => patch_noop cfg2 e hPe.1 hPe.2⟩

/-- Witness for the C4 theorem: a failure oracle striking at `torch.relu`
makes `patch_torch_operators_f` escape with a state whose flag is up, and
re-running the plain `patch_torch_operators` on it changes nothing. -/
theorem patchAll_error_witness :
    sEx.OPERATORS_ALREADY_WRAPPED = false ∧
    patch_torch_operators_f failsRelu cfgW sEx = Except.error sExErr ∧
    sExErr.OPERATORS_ALREADY_WRAPPED = true ∧
    patch_torch_operators cfgW sExErr = sExErr :=
  ⟨rfl, rfl,
    (patchAll_error_aborts_and_poisons failsRelu cfgW sEx sExErr rfl rfl).1,
    (patchAll_error_aborts_and_poisons failsRelu cfgW sEx sExErr rfl rfl).2 cfgW⟩

/-- Claim C9: patching a name absent from the namespace only emits the
missing-operator warning - the namespaces and the registry are untouched -
and within a batch (`patch_namespace_by_patchspec` over distinct names)
the absence of one name does not prevent any present name of the batch
from being patched: the present name ends up wrapped and recorded. -/
theorem patch_missing_name_tolerance
    (s : PatchState) (ns : Nat) (ps : PatchSpec) (bad good : String) (v : OpVal)
    (hnd : ps.underlying_function_names.Nodup)
    (hbadmem : bad ∈ ps.underlying_function_names)
    (hbad : getattr? s.env ⟨ns, bad⟩ = none)
    (hgoodmem : good ∈ ps.underlying_function_names)
    (hgood : getattr? s.env ⟨ns, good⟩ = some v) :
    (∀ fn, patch_namespace_opname s ns ⟨bad, fn⟩ =
      { s with warnings := s.warnings ++ [missingOperatorWarning bad] }) ∧
    getattr? (patch_namespace_by_patchspec s ns ps).env ⟨ns, bad⟩ = none ∧
    missingOperatorWarning bad ∈ (patch_namespace_by_patchspec s ns ps).warnings ∧
    (∀ r ∈ (patch_namespace_by_patchspec s ns ps).ORIGINAL_OPERATORS,
      r.name = bad → r.ns = ns → r ∈ s.ORIGINAL_OPERATORS) ∧
    getattr? (patch_namespace_by_patchspec s ns ps).env ⟨ns, good⟩ =
      some (OpVal.wrap_operator v ⟨good, ps.custom_trace_fn⟩) ∧
    (⟨good, ns, v⟩ : OriginalOpInfo) ∈
      (patch_namespace_by_patchspec s ns ps).ORIGINAL_OPERATORS := by
  have hkeys : (specSteps ns ps).map Prod.fst =
      ps.underlying_function_names.map (fun nm => (⟨ns, nm⟩ : OpKey)) := by
    unfold specSteps
    rw [List.map_map]
    rfl
  have hndkeys : ((specSteps ns ps).map Prod.fst).Nodup := by
    rw [hkeys]
    exact hnd.map (fun a b hab => congrArg OpKey.name hab)
  have hgoodstep : ((⟨ns, good⟩ : OpKey), ps.custom_trace_fn) ∈ specSteps ns ps := by
    unfold specSteps
    exact List.mem_map.mpr ⟨good, hgoodmem, rfl⟩
  have hbadstep : ((⟨ns, bad⟩ : OpKey), ps.custom_trace_fn) ∈ specSteps ns ps := by
    unfold specSteps
    exact List.mem_map.mpr ⟨bad, hbadmem, rfl⟩
  obtain ⟨pre, post, hsplit, hpre, hpost⟩ :=
    steps_mem_split (specSteps ns ps) ⟨ns, good⟩ ps.custom_trace_fn hndkeys hgoodstep
  refine ⟨?_, ?_, ?_, ?_, ?_, ?_⟩
  · intro fn
    simp only [patch_namespace_opname]
    rw [hbad]
  · rw [by_patchspec_eq_foldl]
    exact phase_env_none _ _ _ hbad
  · rw [by_patchspec_eq_foldl]
    exact phase_warn_missing _ _ ⟨ns, bad⟩ ps.custom_trace_fn hbadstep hbad
  · rw [by_patchspec_eq_foldl, phase_reg _ _ hndkeys]
    intro r hr hname hns
    rcases List.mem_append.mp hr with hold | hnew
    · exact hold
    · obtain ⟨st, hst, hstk, hstv⟩ := stepRecords_mem _ _ _ hnew
      have hk2 : recordKey r = (⟨ns, bad⟩ : OpKey) := by
        unfold recordKey
        rw [hname, hns]
      rw [hstk, hk2, hbad] at hstv
      cases hstv
  · rw [by_patchspec_eq_foldl, hsplit]
    exact phase_env_touched pre post ⟨ns, good⟩ ps.custom_trace_fn s v hpre hpost hgood
  · rw [by_patchspec_eq_foldl, hsplit, List.foldl_append, List.foldl_cons]
    apply phase_reg_mono
    have henv : getattr? ((pre.foldl opStep s)).env ⟨ns, good⟩ = some v := by
      rw [phase_env_untouched pre s _ hpre]
      exact hgood
    rw [opStep_eq]
    simp only [henv]
    simp

/-- Witness for the C9 theorem: a batch over a missing `F.missing_fn` and
a present `F.gelu`; the missing name warns and changes nothing, the
present name is still wrapped and recorded. -/
theorem patch_missing_name_tolerance_witness :
    psEx9.underlying_function_names.Nodup ∧
    getattr? sEx9.env ⟨nsF, "missing_fn"⟩ = none ∧
    getattr? sEx9.env ⟨nsF, "gelu"⟩ = some (OpVal.base 5) ∧
    getattr? (patch_namespace_by_patchspec sEx9 nsF psEx9).env ⟨nsF, "missing_fn"⟩ = none ∧
    missingOperatorWarning "missing_fn" ∈
      (patch_namespace_by_patchspec sEx9 nsF psEx9).warnings ∧
    getattr? (patch_namespace_by_patchspec sEx9 nsF psEx9).env ⟨nsF, "gelu"⟩ =
      some (OpVal.wrap_operator (OpVal.base 5) ⟨"gelu", none⟩) ∧
    (⟨"gelu", nsF, OpVal.base 5⟩ : OriginalOpInfo) ∈
      (patch_namespace_by_patchspec sEx9 nsF psEx9).ORIGINAL_OPERATORS := by
  have h := patch_missing_name_tolerance sEx9 nsF psEx9 "missing_fn" "gelu" (OpVal.base 5)
    (by decide) (by decide) rfl (by decide) rfl
  exact ⟨by decide, rfl, rfl, h.2.1, h.2.2.1, h.2.2.2.2.1, h.2.2.2.2.2⟩

/-!
Helper lemmas: the forwarding loops.
-/

theorem getD_set_ne (l : List TVal) (i j : Nat) (v d : TVal) (h : i ≠ j) :
    (l.set i v).getD j d = l.getD j d := by
  rw [List.getD_eq_getElem?_getD, List.getD_eq_getElem?_getD, List.getElem?_set_ne h]

theorem getD_set_self (l : List TVal) (i : Nat) (v d : TVal) (h : i < l.length) :
    (l.set i v).getD i d = v := by
  rw [List.getD_eq_getElem?_getD, List.getElem?_set_self h]
  rfl

theorem mem_tensorIndices (l : List TVal) (j : Nat) :
    j ∈ tensorIndices l ↔ j < l.length ∧ isTensor (l.getD j (TVal.other 0)) = true := by
  unfold tensorIndices
  rw [List.mem_filter, List.mem_range]

theorem mem_tracedIndices (l : List TVal) (j : Nat) :
    j ∈ tracedIndices l ↔ j < l.length ∧ isTracedTensor (l.getD j (TVal.other 0)) = true := by
  unfold tracedIndices
  rw [List.mem_filter, List.mem_range]

theorem tensorIndices_nodup (l : List TVal) : (tensorIndices l).Nodup :=
  (List.nodup_range l.length).filter _

theorem findForwardSource_mem_snd (pairs : List (Nat × Nat)) (o i : Nat)
    (h : findForwardSource pairs o = some i) : o ∈ pairs.map Prod.snd := by
  induction pairs with
  | nil => cases h
  | cons p rest ih =>
    unfold findForwardSource at h
    rw [List.map_cons]
    by_cases hp : p.2 = o
    · exact List.mem_cons.mpr (Or.inl hp.symm)
    · rw [if_neg hp] at h
      exact List.mem_cons_of_mem _ (ih h)

theorem findForwardSource_not_mem (pairs : List (Nat × Nat)) (o : Nat)
    (h : o ∉ pairs.map Prod.snd) : findForwardSource pairs o = none := by
  induction pairs with
  | nil => rfl
  | cons p rest ih =>
    simp only [List.map_cons, List.mem_cons] at h
    push_neg at h
    unfold findForwardSource
    rw [if_neg (fun he => h.1 he.symm)]
    exact ih h.2

theorem findForwardSource_map_const (outs : List Nat) (i0 o : Nat) :
    findForwardSource (outs.map (fun x => (i0, x))) o =
      if o ∈ outs then some i0 else none := by
  induction outs with
  | nil => rfl
  | cons x rest ih =>
    rw [List.map_cons]
    unfold findForwardSource
    by_cases hx : x = o
    · simp [hx]
    · simp only [List.mem_cons]
      rw [if_neg hx, ih]
      by_cases hmem : o ∈ rest
      · rw [if_pos hmem, if_pos (Or.inr hmem)]
      · rw [if_neg hmem, if_neg (by rintro (he | hm); exact hx he.symm; exact hmem hm)]

theorem findForwardSource_zip (a b : List Nat) (t i o : Nat)
    (hnd : b.Nodup) (ha : a.get? t = some i) (hb : b.get? t = some o) :
    findForwardSource (a.zip b) o = some i := by
  induction t generalizing a b with
  | zero =>
    cases a with
    | nil => cases ha
    | cons x a' =>
      cases b with
      | nil => cases hb
      | cons y b' =>
        injection ha with h1
        injection hb with h2
        subst h1
        subst h2
        rw [List.zip_cons_cons]
        unfold findForwardSource
        simp
  | succ t ih =>
    cases a with
    | nil => cases ha
    | cons x a' =>
      cases b with
      | nil => cases hb
      | cons y b' =>
        rw [List.nodup_cons] at hnd
        have hy : ¬ ((x, y).2 = o) := by
          intro he
          have ho : o ∈ b' := by
            have hb' : b'.get? t = some o := hb
            exact List.get?_mem hb'
          rw [← he] at ho
          exact hnd.1 ho
        rw [List.zip_cons_cons]
        unfold findForwardSource
        rw [if_neg hy]
        exact ih a' b' hnd.2 ha hb

theorem forwardPairs_cons (fargs : List TVal) (vals : List TVal) (p : Nat × Nat)
    (rest : List (Nat × Nat)) :
    forwardPairs fargs vals (p :: rest) =
      forwardPairs fargs
        (vals.set p.2 (from_torch_tensor (vals.getD p.2 (TVal.other 0))
          { metaOf (fargs.getD p.1 (TVal.other 0)) with
            shape := shapeOf (vals.getD p.2 (TVal.other 0)) })) rest := rfl

theorem forwardPairs_length (fargs : List TVal) (pairs : List (Nat × Nat)) (vals : List TVal) :
    (forwardPairs fargs vals pairs).length = vals.length := by
  induction pairs generalizing vals with
  | nil => rfl
  | cons p rest ih =>
    rw [forwardPairs_cons, ih, List.length_set]

theorem forwardPairs_getD (fargs : List TVal) (pairs : List (Nat × Nat)) (vals : List TVal)
    (hnd : (pairs.map Prod.snd).Nodup)
    (hbound : ∀ p ∈ pairs, p.2 < vals.length)
    (o : Nat) :
    (forwardPairs fargs vals pairs).getD o (TVal.other 0) =
      match findForwardSource pairs o with
      | some i =>
          TVal.traced (shapeOf (vals.getD o (TVal.other 0)))
            { metaOf (fargs.getD i (TVal.other 0)) with
              shape := shapeOf (vals.getD o (TVal.other 0)) }
      | none => vals.getD o (TVal.other 0) := by
  induction pairs generalizing vals with
  | nil => rfl
  | cons p rest ih =>
    rw [List.map_cons, List.nodup_cons] at hnd
    obtain ⟨hout, hnd'⟩ := hnd
    have hp2 : p.2 < vals.length := hbound p (List.mem_cons_self _ _)
    rw [forwardPairs_cons]
    rw [ih _ hnd' (by
      intro q hq
      rw [List.length_set]
      exact hbound q (List.mem_cons_of_mem _ hq))]
    cases hf : findForwardSource rest o with
    | some i =>
      have hosnd : o ∈ rest.map Prod.snd := findForwardSource_mem_snd rest o i hf
      have ho : p.2 ≠ o := fun he => hout (he ▸ hosnd)
      have hcons : findForwardSource (p :: rest) o = some i := by
        unfold findForwardSource
        rw [if_neg ho]
        exact hf
      rw [hcons, getD_set_ne _ _ _ _ _ ho]
    | none =>
      by_cases hpo : p.2 = o
      · have hcons : findForwardSource (p :: rest) o = some p.1 := by
          unfold findForwardSource
          rw [if_pos hpo]
        rw [hcons]
        subst hpo
        rw [getD_set_self _ _ _ _ hp2]
        rfl
      · have hcons : findForwardSource (p :: rest) o = none := by
          unfold findForwardSource
          rw [if_neg hpo]
          exact hf
        rw [hcons, getD_set_ne _ _ _ _ _ hpo]

/-- Claim C5: in the trace-forwarding policy, for a list/tuple result with
exactly one provenance-carrying flattened argument, every tensor-like
result element is replaced by a traced value carrying a copy of that
input's metadata with its shape field set to that element's actual shape,
and every non-tensor-like element is left unchanged. -/
theorem forward_trace_broadcast {σ : Type} (op_name : String) (op : σ → σ × TRes)
    (args kwargs : List TVal) (st st' : σ) (i0 : Nat) (sh0 : List Nat) (m : TensorMeta)
    (was_tuple : Bool) (vals : List TVal)
    (hop : op st = (st', TRes.seq was_tuple vals))
    (hin : tracedIndices (flatten_args args kwargs) = [i0])
    (hm : (flatten_args args kwargs).getD i0 (TVal.other 0) = TVal.traced sh0 m) :
    ∃ res : List TVal,
      ForwardTraceOnly_call op_name op args kwargs st =
        (st', Except.ok (TRes.seq was_tuple res)) ∧
      res.length = vals.length ∧
      ∀ j : Nat, j < vals.length →
        res.getD j (TVal.other 0) =
          if isTensor (vals.getD j (TVal.other 0)) = true then
            TVal.traced (shapeOf (vals.getD j (TVal.other 0)))
              { m with shape := shapeOf (vals.getD j (TVal.other 0)) }
          else vals.getD j (TVal.other 0) := by
  refine ⟨forwardPairs (flatten_args args kwargs) vals
      ((tensorIndices vals).map (fun out_idx => (i0, out_idx))), ?_, ?_, ?_⟩
  · simp [ForwardTraceOnly_call, hop, hin]
  · exact forwardPairs_length _ _ _
  · intro j hj
    have hnd : (((tensorIndices vals).map (fun out_idx => (i0, out_idx))).map Prod.snd).Nodup := by
      rw [List.map_map]
      have hcomp : (Prod.snd ∘ fun out_idx : Nat => ((i0, out_idx) : Nat × Nat)) = id := rfl
      rw [hcomp, List.map_id]
      exact tensorIndices_nodup vals
    have hbound : ∀ p ∈ (tensorIndices vals).map (fun out_idx => (i0, out_idx)),
        p.2 < vals.length := by
      intro p hp
      rw [List.mem_map] at hp
      obtain ⟨o, ho, rfl⟩ := hp
      exact ((mem_tensorIndices vals o).mp ho).1
    rw [forwardPairs_getD _ _ _ hnd hbound j, findForwardSource_map_const]
    by_cases hjten : isTensor (vals.getD j (TVal.other 0)) = true
    · rw [if_pos ((mem_tensorIndices vals j).mpr ⟨hj, hjten⟩), if_pos hjten]
      show TVal.traced (shapeOf (vals.getD j (TVal.other 0)))
          { metaOf ((flatten_args args kwargs).getD i0 (TVal.other 0)) with
            shape := shapeOf (vals.getD j (TVal.other 0)) } =
        TVal.traced (shapeOf (vals.getD j (TVal.other 0)))
          { m with shape := shapeOf (vals.getD j (TVal.other 0)) }
      rw [hm]
      rfl
    · have hj' : j ∉ tensorIndices vals :=
        fun hmem => hjten ((mem_tensorIndices vals j).mp hmem).2
      rw [if_neg hj', if_neg hjten]

/-- Claim C6: in the trace-forwarding policy, for a list/tuple result
whose count of provenance-carrying inputs is not one but equals the count
of tensor-like result elements, provenance is propagated pairwise in
order - the t-th provenance-carrying input is forwarded (with shape
updated) to the t-th tensor-like output - and no other result element is
changed. -/
theorem forward_trace_pairwise {σ : Type} (op_name : String) (op : σ → σ × TRes)
    (args kwargs : List TVal) (st st' : σ) (was_tuple : Bool) (vals : List TVal)
    (hop : op st = (st', TRes.seq was_tuple vals))
    (hlen1 : (tracedIndices (flatten_args args kwargs)).length ≠ 1)
    (hlen : (tracedIndices (flatten_args args kwargs)).length = (tensorIndices vals).length) :
    ∃ res : List TVal,
      ForwardTraceOnly_call op_name op args kwargs st =
        (st', Except.ok (TRes.seq was_tuple res)) ∧
      res.length = vals.length ∧
      (∀ t i o : Nat,
        (tracedIndices (flatten_args args kwargs)).get? t = some i →
        (tensorIndices vals).get? t = some o →
        res.getD o (TVal.other 0) =
          TVal.traced (shapeOf (vals.getD o (TVal.other 0)))
            { metaOf ((flatten_args args kwargs).getD i (TVal.other 0)) with
              shape := shapeOf (vals.getD o (TVal.other 0)) }) ∧
      (∀ j : Nat, j ∉ tensorIndices vals →
        res.getD j (TVal.other 0) = vals.getD j (TVal.other 0)) := by
  have hle : (tensorIndices vals).length ≤ (tracedIndices (flatten_args args kwargs)).length :=
    le_of_eq hlen.symm
  have hsnd : ((tracedIndices (flatten_args args kwargs)).zip (tensorIndices vals)).map Prod.snd
      = tensorIndices vals := List.map_snd_zip _ _ hle
  have hnd : (((tracedIndices (flatten_args args kwargs)).zip
      (tensorIndices vals)).map Prod.snd).Nodup := by
    rw [hsnd]
    exact tensorIndices_nodup vals
  have hbound : ∀ p ∈ (tracedIndices (flatten_args args kwargs)).zip (tensorIndices vals),
      p.2 < vals.length := by
    intro p hp
    have hp2 : p.2 ∈ tensorIndices vals := (List.of_mem_zip hp).2
    exact ((mem_tensorIndices vals p.2).mp hp2).1
  refine ⟨forwardPairs (flatten_args args kwargs) vals
      ((tracedIndices (flatten_args args kwargs)).zip (tensorIndices vals)), ?_, ?_, ?_, ?_⟩
  · simp only [ForwardTraceOnly_call, hop]
    rw [if_neg hlen1, if_neg (fun hcontra => hcontra hlen)]
  · exact forwardPairs_length _ _ _
  · intro t i o hti hto
    rw [forwardPairs_getD _ _ _ hnd hbound o,
      findForwardSource_zip _ _ t i o (tensorIndices_nodup vals) hti hto]
  · intro j hj
    have hj' : j ∉ ((tracedIndices (flatten_args args kwargs)).zip
        (tensorIndices vals)).map Prod.snd := by
      rw [hsnd]
      exact hj
    rw [forwardPairs_getD _ _ _ hnd hbound j, findForwardSource_not_mem _ _ hj']

/-- Claim C7: whenever the provenance-carrier counts cannot be reconciled
(a sequence result with a traced-input count that is neither one nor the
tensor-like output count, or a single result with more than one traced
input), the call fails with the count-mismatch `RuntimeError` naming the
operator - and the returned effect state is exactly the state after one
execution of the underlying operator, whose side effects are kept. -/
theorem forward_trace_mismatch {σ : Type} (op_name : String) (op : σ → σ × TRes)
    (args kwargs : List TVal) (st : σ) (st' : σ)
    (h : (∃ was_tuple vals, op st = (st', TRes.seq was_tuple vals) ∧
          (tracedIndices (flatten_args args kwargs)).length ≠ 1 ∧
          (tracedIndices (flatten_args args kwargs)).length ≠ (tensorIndices vals).length) ∨
         (∃ v, op st = (st', TRes.single v) ∧
          1 < (tracedIndices (flatten_args args kwargs)).length)) :
    ForwardTraceOnly_call op_name op args kwargs st =
      (st', Except.error (forwardingMismatchMessage op_name)) := by
  rcases h with ⟨b, vals, hop, h1, h2⟩ | ⟨v, hop, h1⟩
  · simp [ForwardTraceOnly_call, hop, h1, h2]
  · simp [ForwardTraceOnly_call, hop, h1]

/-- Claim C8 (amended): for a single (non-list, non-tuple) result: with
exactly one provenance-carrying flattened argument and a tensor-like
result, the result is returned wrapped with a copy of that input's
metadata whose shape is set to the result's shape; with no
provenance-carrying argument, the result is returned unmodified.  (A
non-tensor single result with one provenance-carrying argument instead
raises an `AttributeError` when its `shape` is read - see the
counterexample.) -/
theorem forward_trace_single {σ : Type} (op_name : String) (op : σ → σ × TRes)
    (args kwargs : List TVal) (st : σ) (st' : σ) (v : TVal)
    (hop : op st = (st', TRes.single v)) :
    (∀ (i0 : Nat) (sh0 sh : List Nat) (m : TensorMeta),
      tracedIndices (flatten_args args kwargs) = [i0] →
      (flatten_args args kwargs).getD i0 (TVal.other 0) = TVal.traced sh0 m →
      shape? v = some sh →
      ForwardTraceOnly_call op_name op args kwargs st =
        (st', Except.ok (TRes.single (TVal.traced sh { m with shape := sh })))) ∧
    (tracedIndices (flatten_args args kwargs) = [] →
      ForwardTraceOnly_call op_name op args kwargs st = (st', Except.ok (TRes.single v))) := by
  constructor
  · intro i0 sh0 sh m hin hm hsh
    have hshape : shapeOf v = sh := by
      unfold shapeOf
      rw [hsh]
      rfl
    have hm' : (flatten_args args kwargs)[i0]?.getD (TVal.other 0) = TVal.traced sh0 m := by
      rw [← List.getD_eq_getElem?_getD]
      exact hm
    simp [ForwardTraceOnly_call, hop, hin, hsh, hm, hm', from_torch_tensor, hshape, metaOf]
  · intro hin
    simp [ForwardTraceOnly_call, hop, hin]

/-- Claim C8 (counterexample): a single non-tensor result (as returned by
e.g. `torch.equal`) with exactly one provenance-carrying argument is not
returned wrapped: reading its `shape` raises, so the call produces no
normal return value at all. -/
theorem forward_trace_single_counterexample :
    (ForwardTraceOnly_call "item" opEx8bad [TVal.traced [2] mEx] [] (0 : Nat)).snd =
      Except.error shapeAttributeErrorMessage ∧
    exceptIsOk (ForwardTraceOnly_call "item" opEx8bad
      [TVal.traced [2] mEx] [] (0 : Nat)).snd = false := by
  constructor
  · rfl
  · rfl

/-- Witness for the C5 theorem: one traced input, a tuple result with two
tensor elements and one non-tensor element. -/
theorem forward_trace_broadcast_witness :
    opEx5 0 = (1, TRes.seq true [TVal.tensor [3], TVal.other 5, TVal.tensor [4, 1]]) ∧
    tracedIndices (flatten_args [TVal.traced [2] mEx] []) = [0] ∧
    (flatten_args [TVal.traced [2] mEx] []).getD 0 (TVal.other 0) = TVal.traced [2] mEx ∧
    (∃ res : List TVal,
      ForwardTraceOnly_call "cat" opEx5 [TVal.traced [2] mEx] [] (0 : Nat) =
        (1, Except.ok (TRes.seq true res)) ∧
      res.length = ([TVal.tensor [3], TVal.other 5, TVal.tensor [4, 1]] : List TVal).length ∧
      ∀ j : Nat, j < ([TVal.tensor [3], TVal.other 5, TVal.tensor [4, 1]] : List TVal).length →
        res.getD j (TVal.other 0) =
          if isTensor (([TVal.tensor [3], TVal.other 5, TVal.tensor [4, 1]] :
              List TVal).getD j (TVal.other 0)) = true then
            TVal.traced (shapeOf (([TVal.tensor [3], TVal.other 5, TVal.tensor [4, 1]] :
                List TVal).getD j (TVal.other 0)))
              { mEx with shape := shapeOf (([TVal.tensor [3], TVal.other 5, TVal.tensor [4, 1]] :
                  List TVal).getD j (TVal.other 0)) }
          else ([TVal.tensor [3], TVal.other 5, TVal.tensor [4, 1]] :
            List TVal).getD j (TVal.other 0)) :=
  ⟨rfl, by decide, rfl,
    forward_trace_broadcast "cat" opEx5 [TVal.traced [2] mEx] [] 0 1 0 [2] mEx true
      [TVal.tensor [3], TVal.other 5, TVal.tensor [4, 1]] rfl (by decide) rfl⟩

/-- Witness for the C6 theorem: two traced inputs, a list result with two
tensor elements. -/
theorem forward_trace_pairwise_witness :
    opEx6 0 = (1, TRes.seq false [TVal.tensor [3], TVal.other 9, TVal.tensor [4]]) ∧
    (tracedIndices (flatten_args [TVal.traced [2] mEx, TVal.other 1, TVal.traced [5] mEx2] [])).length ≠ 1 ∧
    (tracedIndices (flatten_args [TVal.traced [2] mEx, TVal.other 1, TVal.traced [5] mEx2] [])).length =
      (tensorIndices [TVal.tensor [3], TVal.other 9, TVal.tensor [4]]).length ∧
    (∃ res : List TVal,
      ForwardTraceOnly_call "split" opEx6
          [TVal.traced [2] mEx, TVal.other 1, TVal.traced [5] mEx2] [] (0 : Nat) =
        (1, Except.ok (TRes.seq false res)) ∧
      res.length = ([TVal.tensor [3], TVal.other 9, TVal.tensor [4]] : List TVal).length ∧
      (∀ t i o : Nat,
        (tracedIndices (flatten_args [TVal.traced [2] mEx, TVal.other 1, TVal.traced [5] mEx2] [])).get? t = some i →
        (tensorIndices [TVal.tensor [3], TVal.other 9, TVal.tensor [4]]).get? t = some o →
        res.getD o (TVal.other 0) =
          TVal.traced (shapeOf (([TVal.tensor [3], TVal.other 9, TVal.tensor [4]] :
              List TVal).getD o (TVal.other 0)))
            { metaOf ((flatten_args [TVal.traced [2] mEx, TVal.other 1, TVal.traced [5] mEx2]
                []).getD i (TVal.other 0)) with
              shape := shapeOf (([TVal.tensor [3], TVal.other 9, TVal.tensor [4]] :
                List TVal).getD o (TVal.other 0)) }) ∧
      (∀ j : Nat, j ∉ tensorIndices [TVal.tensor [3], TVal.other 9, TVal.tensor [4]] →
        res.getD j (TVal.other 0) = ([TVal.tensor [3], TVal.other 9, TVal.tensor [4]] :
          List TVal).getD j (TVal.other 0))) :=
  ⟨rfl, by decide, by decide,
    forward_trace_pairwise "split" opEx6
      [TVal.traced [2] mEx, TVal.other 1, TVal.traced [5] mEx2] [] 0 1 false
      [TVal.tensor [3], TVal.other 9, TVal.tensor [4]] rfl (by decide) (by decide)⟩

/-- Witness for the C7 theorem: two traced inputs and three tensor
outputs fail with the mismatch error, while the counter state shows the
underlying operator ran exactly once. -/
theorem forward_trace_mismatch_witness :
    ForwardTraceOnly_call "chunk" opEx7 [TVal.traced [2] mEx, TVal.traced [5] mEx2] [] (0 : Nat) =
      (1, Except.error (forwardingMismatchMessage "chunk")) :=
  forward_trace_mismatch "chunk" opEx7 [TVal.traced [2] mEx, TVal.traced [5] mEx2] [] 0 1
    (Or.inl ⟨true, [TVal.tensor [1], TVal.tensor [2], TVal.tensor [3]], rfl,
      by decide, by decide⟩)

/-- Witness for the amended C8 theorem: a single tensor result with one
traced input is returned wrapped with the forwarded metadata; with no
traced input it is returned unchanged. -/
theorem forward_trace_single_witness :
    ForwardTraceOnly_call "relu" opEx8 [TVal.traced [2] mEx] [] (0 : Nat) =
      (1, Except.ok (TRes.single (TVal.traced [4] { mEx with shape := [4] }))) ∧
    ForwardTraceOnly_call "relu" opEx8 [TVal.other 1] [] (0 : Nat) =
      (1, Except.ok (TRes.single (TVal.tensor [4]))) :=
  ⟨(forward_trace_single "relu" opEx8 [TVal.traced [2] mEx] [] 0 1 (TVal.tensor [4]) rfl).1
      0 [2] [4] mEx (by decide) rfl rfl,
    (forward_trace_single "relu" opEx8 [TVal.other 1] [] 0 1 (TVal.tensor [4]) rfl).2
      (by decide)⟩

/-!
Coherence of the two embeddings of `patch_torch_operators`: with a
never-failing oracle, the fallible run returns exactly the plain run.
-/

theorem opname_f_noFail (s : PatchState) (ns : Nat) (i : PatchedOperatorInfo) :
    patch_namespace_opname_f (fun _ => false) s ns i =
      Except.ok (patch_namespace_opname s ns i) := rfl

theorem by_patchspec_f_noFail (ns : Nat) (ps : PatchSpec) :
    ∀ s : PatchState, patch_namespace_by_patchspec_f (fun _ => false) s ns ps =
      Except.ok (patch_namespace_by_patchspec s ns ps) := by
  unfold patch_namespace_by_patchspec_f patch_namespace_by_patchspec
  induction ps.underlying_function_names with
  | nil => intro s; rfl
  | cons nm rest ih =>
    intro s
    rw [List.foldlM_cons, List.foldl_cons, opname_f_noFail]
    exact ih _

theorem patchMetatype_f_noFail (m : OperatorMetatype) :
    ∀ s : PatchState, patchMetatype_f (fun _ => false) s m =
      Except.ok (patchMetatype s m) := by
  intro s
  unfold patchMetatype_f patchMetatype
  cases m.torch_nn_functional_patch_spec <;> cases m.torch_module_patch_spec <;>
    cases m.torch_tensor_patch_spec <;>
    simp [by_patchspec_f_noFail] <;> rfl

theorem patch_torch_operators_f_noFail (cfg : List OperatorMetatype) (s : PatchState) :
    patch_torch_operators_f (fun _ => false) cfg s =
      Except.ok (patch_torch_operators cfg s) := by
  unfold patch_torch_operators_f patch_torch_operators
  by_cases hops : (jitStep s).OPERATORS_ALREADY_WRAPPED
  · simp [hops]
  · simp only [hops, if_false, Bool.false_eq_true]
    have hloop : ∀ (l : List OperatorMetatype) (t : PatchState),
        l.foldlM (patchMetatype_f (fun _ => false)) t = Except.ok (l.foldl patchMetatype t) := by
      intro l
      induction l with
      | nil => intro t; rfl
      | cons m rest ih =>
        intro t
        rw [List.foldlM_cons, List.foldl_cons, patchMetatype_f_noFail]
        exact ih _
    rw [hloop]
    rfl
